import Mathlib

/-!
# Verification of the compmec/shape boundary boolean algebra engine

This file gives a shallow embedding, in Lean 4, of the parts of the
`compmec/shape` Python library that the frozen claims C1 to C10 are about:

* `src/compmec/shape/curve.py` : Bezier evaluation (`Math`, `BezierCurve`),
  degree reduction (`clean`), planar integrals (`IntegratePlanar`);
* `src/compmec/shape/jordancurve.py` : the Newton based curve intersection
  (`IntersectionBeziers`), jordan integrals (`IntegrateJordan`) and the
  `JordanCurve` class with its caches;
* `src/compmec/shape/shape.py` : the shape variant algebra (`EmptyShape`,
  `WholeShape`, `SimpleShape`, `ConnectedShape`, `DisjointShape`,
  `ShapeFromJordans`) and the path follower (`FollowPath.pursue_path`).

Modelling conventions:

* Python `Fraction` arithmetic is embedded as `ℚ`; floating point
  quantities whose claims concern their exact mathematical content
  (angles, arc lengths, winding numbers) are embedded as `ℝ`.
* 2D points (`Point2D` of the absent `polygon.py` module) are pairs,
  with componentwise addition and scalar action; dot and cross products,
  the euclidean norm, the axis aligned `Box` and its membership test are
  modelled from the spec (the spec describes `polygon.py` only through
  this narrow interface).
* The external `compmec.nurbs` collaborator (quadrature node/weight
  tables, least squares degree change matrices) is abstracted as explicit
  oracle parameters, so every theorem quantifies over the collaborator.
* A Python `raise` is an `Except.error`; Python sets are lists with
  membership guarded insertion (all proved properties are insensitive to
  iteration order).
-/

set_option maxHeartbeats 1600000

/-- A planar point, standing for `Point2D` of `compmec.shape.polygon`. -/
abbrev Pt (K : Type) := K × K

/-- Modelled from the spec: the dot (inner) product of `Point2D`. -/
def pdot {K : Type} [CommRing K] (p q : Pt K) : K :=
  p.1 * q.1 + p.2 * q.2

/-- Modelled from the spec: the 2D cross product of `Point2D`. -/
def pcross {K : Type} [CommRing K] (p q : Pt K) : K :=
  p.1 * q.2 - p.2 * q.1

namespace Math

/-- `Math.comb` of `curve.py`: binomial coefficient computed by the same
product-then-successive-integer-division loops as the source. -/
def comb (n i : ℕ) : ℕ :=
  let v := (List.range i).foldl (fun acc j => acc * (n - i + 1 + j)) 1
  (List.range (i - 1)).foldl (fun acc j => acc / (j + 2)) v

/-- One entry of `Math.bezier_caract_matrix`: entry `(i, j)` is
`±comb(degree,i)*comb(degree-i,j)` for `j ≤ degree - i` (sign
`(-1)^(degree+i+j)`), and `0` outside that triangle. -/
def caractEntry (degree i j : ℕ) : ℤ :=
  if i + j ≤ degree then
    (if (degree + i + j) % 2 = 1 then -1 else 1) * ((comb degree i : ℤ) * (comb (degree - i) j : ℤ))
  else 0

/-- `Math.horner_method` of `curve.py`, acting on point valued
coefficients: starts from `0 * coefs[0]` (the zero point) and folds
`value = value * node + coef` over the coefficient list. -/
def horner_method {K : Type} [CommRing K] (node : K) (coefs : List (Pt K)) : Pt K :=
  coefs.foldl (fun value coef => node • value + coef) 0

end Math

namespace BezierCurve

/-- The canonical coefficients `np.dot(ctrlpoints, matrix)` computed inside
`BezierCurve.eval`: entry `j` is `Σ_i ctrlpoints[i] * M[i][j]`. -/
def canonPts {K : Type} [CommRing K] (cpts : List (Pt K)) : List (Pt K) :=
  let degree := cpts.length - 1
  (List.range cpts.length).map (fun j =>
    (cpts.enum.map (fun ia => ((Math.caractEntry degree ia.1 j : ℤ) : K) • ia.2)).sum)

/-- `BezierCurve.eval` of `curve.py`: evaluates the curve at each node by
the Horner scheme on the canonical coefficients. -/
def eval {K : Type} [CommRing K] (cpts : List (Pt K)) (nodes : List K) : List (Pt K) :=
  let canon := canonPts cpts
  nodes.map (fun node => Math.horner_method node canon)

end BezierCurve

/-- C8: for every Bezier segment of degree 1 or 2 (control point lists of
length 2 or 3), `BezierCurve.eval` at parameter 0 returns the first control
point exactly and at parameter 1 returns the last control point exactly. -/
theorem C8_eval_endpoints_exact (p0 p1 p2 : Pt ℚ) :
    BezierCurve.eval [p0, p1] [0, 1] = [p0, p1] ∧
      BezierCurve.eval [p0, p1, p2] [0, 1] = [p0, p2] := by
  constructor <;>
  · simp [BezierCurve.eval, BezierCurve.canonPts, Math.horner_method,
      Math.caractEntry, Math.comb, List.range_succ, List.enum, List.enumFrom]
    all_goals (rw [Prod.ext_iff]; constructor <;> (simp [smul_eq_mul]; ring))

namespace Operations

/-- `np.dot(matrix, points)` for a rectangular matrix given as a list of
rows and a vector of points: row `r` gives the point `Σ_i r[i] * P[i]`. -/
def dotMatPts {K : Type} [CommRing K] (rows : List (List K)) (cpts : List (Pt K)) : List (Pt K) :=
  rows.map (fun row => ((row.zip cpts).map (fun rc => rc.1 • rc.2)).sum)

/-- `np.dot(points, qs)` for two point vectors, pairing with the dot
product of `Point2D`: the scalar `Σ_i P[i] · Q[i]`. -/
def dotPtsPts {K : Type} [CommRing K] (ps qs : List (Pt K)) : K :=
  ((ps.zip qs).map (fun pq => pdot pq.1 pq.2)).sum

/-- The truthiness test `tolerance and error > tolerance` of
`BezierCurve.clean`: `None` and `0` are falsy. -/
def tolCheck {K : Type} [LinearOrderedField K] (tol : Option K) (error : K) : Bool :=
  match tol with
  | none => false
  | some t => if t = 0 then false else decide (error > t)

end Operations

namespace BezierCurve

/-- The `while degree - times > 1` loop of `BezierCurve.clean`, computing
the number `times` of degree reductions to apply.  `ddO` is the oracle for
`Operations.degree_decrease` (the external `compmec.nurbs` least squares
matrices): `ddO degree times = (mattrans, materror)`.  Structural fuel
bounds the loop; `clean` calls it with fuel `degree`, which the loop can
never exhaust since `times` grows by one per pass. -/
def cleanTimes {K : Type} [LinearOrderedField K]
    (ddO : ℕ → ℕ → List (List K) × List (List K)) (tol : Option K)
    (degree : ℕ) (cpts : List (Pt K)) : ℕ → ℕ → ℕ
  | 0, times => times
  | fuel + 1, times =>
    if 1 < degree - times then
      let materror := (ddO degree (times + 1)).2
      let error := Operations.dotPtsPts cpts (Operations.dotMatPts materror cpts)
      if Operations.tolCheck tol error then times
      else cleanTimes ddO tol degree cpts fuel (times + 1)
    else times

/-- `BezierCurve.clean` of `curve.py`, in functional form: returns the
control points after the degree reduction (`times = 0` means the early
`return` with no mutation). -/
def clean {K : Type} [LinearOrderedField K]
    (ddO : ℕ → ℕ → List (List K) × List (List K)) (tol : Option K)
    (cpts : List (Pt K)) : List (Pt K) :=
  let degree := cpts.length - 1
  let times := cleanTimes ddO tol degree cpts degree 0
  if times = 0 then cpts
  else Operations.dotMatPts (ddO degree times).1 cpts

end BezierCurve

/-- C9: calling `clean` with `tolerance = None` on a degree 2 planar curve
skips the error check entirely (the result does not depend on the error
matrices, only on the `degree_decrease(2,1)` transformation matrix) and
leaves a curve of degree 1, i.e. two control points, which is the mutated
receiver returned by `PlanarCurve.clean`. -/
theorem C9_clean_none_forces_degree_one
    (ddO : ℕ → ℕ → List (List ℚ) × List (List ℚ))
    (hshape : ((ddO 2 1).1).length = 2)
    (cpts : List (Pt ℚ)) (hdeg : cpts.length = 3) :
    (BezierCurve.clean ddO none cpts).length = 2 ∧
      BezierCurve.clean ddO none cpts = Operations.dotMatPts (ddO 2 1).1 cpts ∧
      (∀ ddO2 : ℕ → ℕ → List (List ℚ) × List (List ℚ),
        (ddO2 2 1).1 = (ddO 2 1).1 →
          BezierCurve.clean ddO2 none cpts = BezierCurve.clean ddO none cpts) := by
  have h1 : ∀ dd : ℕ → ℕ → List (List ℚ) × List (List ℚ),
      BezierCurve.clean dd none cpts = Operations.dotMatPts (dd 2 1).1 cpts := by
    intro dd
    simp [BezierCurve.clean, hdeg, BezierCurve.cleanTimes, Operations.tolCheck]
  refine ⟨?_, h1 ddO, ?_⟩
  · rw [h1 ddO, Operations.dotMatPts, List.length_map, hshape]
  · intro ddO2 heq
    rw [h1 ddO2, h1 ddO, heq]

/-- Witness for C9 at a concrete oracle (the exact least squares matrix
for reducing degree 2 to degree 1) and a concrete quadratic curve. -/
theorem C9_clean_none_forces_degree_one_witness :
    (BezierCurve.clean
        (fun _ _ => ([[5/6, 1/3, -1/6], [-1/6, 1/3, 5/6]], [[0, 0, 0], [0, 0, 0], [0, 0, 0]]))
        none [((0 : ℚ), (0 : ℚ)), (1, 0), (0, 1)]).length = 2 :=
  (C9_clean_none_forces_degree_one
    (fun _ _ => ([[5/6, 1/3, -1/6], [-1/6, 1/3, 5/6]], [[0, 0, 0], [0, 0, 0], [0, 0, 0]]))
    (by decide) [((0 : ℚ), (0 : ℚ)), (1, 0), (0, 1)] (by decide)).1

namespace IntersectionBeziers

/-- `IntersectionBeziers.tol_du` (the float `1e-9`, modelled exactly). -/
def tol_du : ℚ := 1 / 10 ^ 9

/-- `IntersectionBeziers.tol_norm` (the float `1e-9`, modelled exactly). -/
def tol_norm : ℚ := 1 / 10 ^ 9

/-- `IntersectionBeziers.max_denom = ceil(1 / tol_du)`. -/
def max_denom : ℕ := 10 ^ 9

/-- `IntersectionBeziers.eval_bezier`: the Bernstein values
`B_{i,p}(u) = comb(p,i) (1-u)^(p-i) u^i` for `i = 0..p` (`math.comb` is the
exact binomial). -/
def eval_bezier (degree : ℕ) (node : ℚ) : List ℚ :=
  (List.range (degree + 1)).map (fun i =>
    (Nat.choose degree i : ℚ) * (1 - node) ^ (degree - i) * node ^ i)

/-- Entry `(i, j)` of `IntersectionBeziers.matrix_derivate`:
`matrix[i][i+1] = degree - i`, `matrix[i+1][i] = -(i+1)`, and the diagonal
`matrix[i][i] = 2i - degree`. -/
def dmatEntry (degree i j : ℕ) : ℤ :=
  if i = j then 2 * (i : ℤ) - degree
  else if j = i + 1 then (degree : ℤ) - i
  else if i = j + 1 then -(i : ℤ)
  else 0

/-- `dmat @ cpts`: applies the derivative matrix to a control point list. -/
def dapply (degree : ℕ) (cpts : List (Pt ℚ)) : List (Pt ℚ) :=
  (List.range (degree + 1)).map (fun i =>
    ((List.range (degree + 1)).map (fun j =>
      ((dmatEntry degree i j : ℤ) : ℚ) • cpts.getD j 0)).sum)

/-- The scalar `a @ tensordot(P, Q) @ b = Σ_i Σ_j a[i] (P[i]·Q[j]) b[j]`
contracted directly (the source precomputes the middle tensor; the value
is the same). -/
def contract (a : List ℚ) (P Q : List (Pt ℚ)) (b : List ℚ) : ℚ :=
  ((a.zip P).map (fun ap =>
    ((b.zip Q).map (fun bq => ap.1 * pdot ap.2 bq.2 * bq.1)).sum)).sum

/-- `a @ cpts`: the Bernstein combination `Σ_i a[i] * P[i]` used for the
residual evaluation. -/
def bernsteinPt (degree : ℕ) (cpts : List (Pt ℚ)) (u : ℚ) : Pt ℚ :=
  (((eval_bezier degree u).zip cpts).map (fun wc => wc.1 • wc.2)).sum

/-- The loop of Python `Fraction.limit_denominator`: walks the continued
fraction of `n/d` keeping convergents `p0/q0`, `p1/q1` until the next
denominator would exceed `maxd`, then returns the better of the two
bounds.  The divisor argument `d` strictly decreases (euclidean
remainder), which proves termination; `d = 0` is unreachable for the
inputs the source feeds it (denominator above `maxd`). -/
def ldLoop (maxd : ℕ) (q : ℚ) : ℤ → ℕ → ℤ → ℤ → ℤ → ℤ → ℚ
  | _, 0, _, _, p1, q1 => (p1 : ℚ) / (q1 : ℚ)
  | n, d + 1, p0, q0, p1, q1 =>
    let m : ℤ := ((d : ℤ) + 1)
    let a := Int.fdiv n m
    let q2 := q0 + a * q1
    if (maxd : ℤ) < q2 then
      let k := Int.fdiv ((maxd : ℤ) - q0) q1
      let bound1 : ℚ := ((p0 + k * p1 : ℤ) : ℚ) / ((q0 + k * q1 : ℤ) : ℚ)
      let bound2 : ℚ := (p1 : ℚ) / (q1 : ℚ)
      if |bound2 - q| ≤ |bound1 - q| then bound2 else bound1
    else
      ldLoop maxd q m (Int.fmod n m).toNat p1 q1 (p0 + a * p1) (q0 + a * q1)
termination_by n d p0 q0 p1 q1 => d
decreasing_by
  have hm : (0 : ℤ) < (d : ℤ) + 1 := by positivity
  have heq : Int.fmod n ((d : ℤ) + 1) = n % ((d : ℤ) + 1) :=
    Int.fmod_eq_emod n (le_of_lt hm)
  have h1 : n % ((d : ℤ) + 1) < (d : ℤ) + 1 := Int.emod_lt_of_pos n hm
  have h2 : 0 ≤ n % ((d : ℤ) + 1) := Int.emod_nonneg n (by omega)
  omega

/-- Python `Fraction.limit_denominator`: identity when the denominator is
already within the bound. -/
def limit_denominator (q : ℚ) (maxd : ℕ) : ℚ :=
  if q.den ≤ maxd then q else ldLoop maxd q q.num q.den 0 1 1 0

/-- The clamp `min(1, max(0, x))` applied to each Newton iterate. -/
def clamp01 (x : ℚ) : ℚ := min 1 (max 0 x)

/-- The precomputed data of one `intersection_bezier` call: degrees,
control points and their first and second derivative control points. -/
structure NewtonIn where
  dega : ℕ
  degb : ℕ
  cptsa : List (Pt ℚ)
  dcptsa : List (Pt ℚ)
  ddcptsa : List (Pt ℚ)
  cptsb : List (Pt ℚ)
  dcptsb : List (Pt ℚ)
  ddcptsb : List (Pt ℚ)

/-- Result of one pass of the Newton loop body: `abort` is the singular
Jacobian branch (`ui, vj = inf, inf; break`), `done` the convergence break
(both parameter moves within `tol_du`), `next` a continuing iteration. -/
inductive StepRes where
  | abort : StepRes
  | done : ℚ → ℚ → StepRes
  | next : ℚ → ℚ → StepRes

/-- One iteration of the Newton loop of
`IntersectionBeziers.intersection_bezier` (source lines 117 to 155). -/
def newtonStep (D : NewtonIn) (ui vj : ℚ) : StepRes :=
  let aui := eval_bezier D.dega ui
  let bvj := eval_bezier D.degb vj
  let ada := contract aui D.cptsa D.dcptsa aui
  let adb := contract aui D.cptsa D.dcptsb bvj
  let bda := contract bvj D.cptsb D.dcptsa aui
  let bdb := contract bvj D.cptsb D.dcptsb bvj
  let adda := contract aui D.cptsa D.ddcptsa aui
  let addb := contract aui D.cptsa D.ddcptsb bvj
  let bdda := contract bvj D.cptsb D.ddcptsa aui
  let bddb := contract bvj D.cptsb D.ddcptsb bvj
  let dada := contract aui D.dcptsa D.dcptsa aui
  let dadb := contract aui D.dcptsa D.dcptsb bvj
  let dbdb := contract bvj D.dcptsb D.dcptsb bvj
  let mat00 := dbdb + bddb - addb
  let mat11 := dada + adda - bdda
  let vec0 := ada - bda
  let vec1 := bdb - adb
  let denom := mat00 * mat11 - dadb ^ 2
  if denom = 0 then StepRes.abort
  else
    let ui2 := clamp01 (limit_denominator (ui - (mat00 * vec0 + dadb * vec1) / denom) max_denom)
    let vj2 := clamp01 (limit_denominator (vj - (dadb * vec0 + mat11 * vec1) / denom) max_denom)
    if tol_du < |ui - ui2| then StepRes.next ui2 vj2
    else if tol_du < |vj - vj2| then StepRes.next ui2 vj2
    else StepRes.done ui2 vj2

/-- The `for k in range(10)` Newton loop, as fuel recursion: `none` models
the aborted seed (infinite parameters, later discarded by the range
check), `some` the final parameter pair. -/
def newtonRun (D : NewtonIn) : ℕ → ℚ → ℚ → Option (ℚ × ℚ)
  | 0, u, v => some (u, v)
  | fuel + 1, u, v =>
    match newtonStep D u v with
    | StepRes.abort => none
    | StepRes.done u2 v2 => some (u2, v2)
    | StepRes.next u2 v2 => newtonRun D fuel u2 v2

/-- `usample` of the source: `Fraction(i) / nptbs` for
`i in range(nptas + 1)` — note the denominator is `nptbs = degb + 3` while
the index range is governed by `nptas = dega + 3`. -/
def usample (dega degb : ℕ) : List ℚ :=
  (List.range (dega + 3 + 1)).map (fun i : ℕ => (i : ℚ) / ((degb : ℚ) + 3))

/-- `vsample` of the source: `Fraction(i) / nptbs` for
`i in range(nptbs + 1)`. -/
def vsample (degb : ℕ) : List ℚ :=
  (List.range (degb + 3 + 1)).map (fun j : ℕ => (j : ℚ) / ((degb : ℚ) + 3))

/-- The grid of Newton starting pairs, in the source's loop order. -/
def seedPairs (dega degb : ℕ) : List (ℚ × ℚ) :=
  (usample dega degb).bind (fun u => (vsample degb).map (fun v => (u, v)))

/-- `intersections.add(...)`: set insertion, modelled as membership guarded
append. -/
def insertPair (acc : List (ℚ × ℚ)) (p : ℚ × ℚ) : List (ℚ × ℚ) :=
  if p ∈ acc then acc else acc ++ [p]

/-- The body of the seed loop for one grid pair: run the Newton iteration
and add the result to the accumulated set if it passes the
`ui < 0 or 1 < ui or vj < 0 or 1 < vj` range check. -/
def seedStep (D : NewtonIn) (acc : List (ℚ × ℚ)) (s : ℚ × ℚ) : List (ℚ × ℚ) :=
  match newtonRun D 10 s.1 s.2 with
  | none => acc
  | some (u, v) =>
    if u < 0 ∨ 1 < u ∨ v < 0 ∨ 1 < v then acc else insertPair acc (u, v)

/-- The seed loop: run Newton from each grid pair and collect the results
that pass the range check. -/
def rawIntersections (D : NewtonIn) (dega degb : ℕ) : List (ℚ × ℚ) :=
  (seedPairs dega degb).foldl (seedStep D) []

/-- The `abs(ui - uk) < tol_du and abs(vj - vl) < tol_du` closeness test of
the deduplication pass. -/
def closePair (p q : ℚ × ℚ) : Bool :=
  decide (|p.1 - q.1| < tol_du) && decide (|p.2 - q.2| < tol_du)

/-- One step of the greedy deduplication pass: a pair is kept only if no
already kept pair is close to it in both parameters. -/
def dedupStep (acc : List (ℚ × ℚ)) (p : ℚ × ℚ) : List (ℚ × ℚ) :=
  if acc.any (fun q => closePair p q) then acc else acc ++ [p]

/-- The greedy deduplication pass building `filter_inters`. -/
def filterInters (l : List (ℚ × ℚ)) : List (ℚ × ℚ) :=
  l.foldl dedupStep []

/-- Squared euclidean norm; `abs(pta - ptb) > tol_norm` is modelled exactly
as `normSq > tol_norm ^ 2`. -/
def ptNormSq (p : Pt ℚ) : ℚ := p.1 ^ 2 + p.2 ^ 2

/-- The final residual check: keep a pair only if the two curve points are
within `tol_norm` of each other. -/
def residualKeep (dega degb : ℕ) (cptsa cptsb : List (Pt ℚ)) (p : ℚ × ℚ) : Bool :=
  let pta := bernsteinPt dega cptsa p.1
  let ptb := bernsteinPt degb cptsb p.2
  decide (ptNormSq (pta - ptb) ≤ tol_norm ^ 2)

/-- `IntersectionBeziers.intersection_bezier` of `jordancurve.py`.
`none` models the coincidence sentinel `((None, None),)` returned when the
control point tuples are equal (`is_equal_controlpoints`); otherwise the
returned list is the filtered intersection parameter set. -/
def intersection_bezier (cptsa cptsb : List (Pt ℚ)) : Option (List (ℚ × ℚ)) :=
  if cptsa = cptsb then none
  else
    let dega := cptsa.length - 1
    let degb := cptsb.length - 1
    let dcptsa := dapply dega cptsa
    let dcptsb := dapply degb cptsb
    let D : NewtonIn :=
      ⟨dega, degb, cptsa, dcptsa, dapply dega dcptsa, cptsb, dcptsb, dapply degb dcptsb⟩
    some ((filterInters (rawIntersections D dega degb)).filter
      (residualKeep dega degb cptsa cptsb))

end IntersectionBeziers

namespace IntersectionBeziers

theorem clamp01_mem (x : ℚ) : 0 ≤ clamp01 x ∧ clamp01 x ≤ 1 :=
  ⟨le_min zero_le_one (le_max_left 0 x), min_le_left 1 _⟩

theorem newtonStep_cases (D : NewtonIn) (u v : ℚ) :
    newtonStep D u v = StepRes.abort ∨
      (∃ x y, newtonStep D u v = StepRes.done (clamp01 x) (clamp01 y)) ∨
      (∃ x y, newtonStep D u v = StepRes.next (clamp01 x) (clamp01 y)) := by
  simp only [newtonStep]
  split
  · exact Or.inl rfl
  · split
    · exact Or.inr (Or.inr ⟨_, _, rfl⟩)
    · split
      · exact Or.inr (Or.inr ⟨_, _, rfl⟩)
      · exact Or.inr (Or.inl ⟨_, _, rfl⟩)

theorem newtonRun_some_clamped (D : NewtonIn) :
    ∀ (fuel : ℕ) (u v u2 v2 : ℚ),
      newtonRun D (fuel + 1) u v = some (u2, v2) →
        0 ≤ u2 ∧ u2 ≤ 1 ∧ 0 ≤ v2 ∧ v2 ≤ 1 := by
  intro fuel
  induction fuel with
  | zero =>
    intro u v u2 v2 h
    rcases newtonStep_cases D u v with hs | ⟨x, y, hs⟩ | ⟨x, y, hs⟩ <;>
      simp only [newtonRun, hs] at h
    · exact absurd h (by simp)
    · obtain ⟨h1, h2⟩ := Prod.mk.injEq .. ▸ (Option.some.injEq .. ▸ h)
      exact h1 ▸ h2 ▸ ⟨(clamp01_mem x).1, (clamp01_mem x).2, (clamp01_mem y).1, (clamp01_mem y).2⟩
    · obtain ⟨h1, h2⟩ := Prod.mk.injEq .. ▸ (Option.some.injEq .. ▸ h)
      exact h1 ▸ h2 ▸ ⟨(clamp01_mem x).1, (clamp01_mem x).2, (clamp01_mem y).1, (clamp01_mem y).2⟩
  | succ n ih =>
    intro u v u2 v2 h
    rcases newtonStep_cases D u v with hs | ⟨x, y, hs⟩ | ⟨x, y, hs⟩ <;>
      simp only [newtonRun, hs] at h
    · exact absurd h (by simp)
    · obtain ⟨h1, h2⟩ := Prod.mk.injEq .. ▸ (Option.some.injEq .. ▸ h)
      exact h1 ▸ h2 ▸ ⟨(clamp01_mem x).1, (clamp01_mem x).2, (clamp01_mem y).1, (clamp01_mem y).2⟩
    · exact ih _ _ _ _ h

theorem mem_insertPair {acc : List (ℚ × ℚ)} {q p : ℚ × ℚ}
    (h : q ∈ insertPair acc p) : q ∈ acc ∨ q = p := by
  unfold insertPair at h
  split at h
  · exact Or.inl h
  · rcases List.mem_append.1 h with h1 | h1
    · exact Or.inl h1
    · exact Or.inr (List.mem_singleton.1 h1)

theorem seedStep_mem (D : NewtonIn) {acc : List (ℚ × ℚ)} {s : ℚ × ℚ} {q : ℚ × ℚ}
    (h : q ∈ seedStep D acc s) :
    q ∈ acc ∨ (0 ≤ q.1 ∧ q.1 ≤ 1 ∧ 0 ≤ q.2 ∧ q.2 ≤ 1) := by
  unfold seedStep at h
  split at h
  · exact Or.inl h
  · rename_i u v heq
    split at h
    · exact Or.inl h
    · rcases mem_insertPair h with h1 | h1
      · exact Or.inl h1
      · rename_i hrange
        push_neg at hrange
        exact Or.inr (h1 ▸ hrange)

theorem rawIntersections_mem (D : NewtonIn) (da db : ℕ) :
    ∀ p ∈ rawIntersections D da db, 0 ≤ p.1 ∧ p.1 ≤ 1 ∧ 0 ≤ p.2 ∧ p.2 ≤ 1 := by
  have key : ∀ (l acc : List (ℚ × ℚ)),
      (∀ p ∈ acc, 0 ≤ p.1 ∧ p.1 ≤ 1 ∧ 0 ≤ p.2 ∧ p.2 ≤ 1) →
      ∀ p ∈ l.foldl (seedStep D) acc, 0 ≤ p.1 ∧ p.1 ≤ 1 ∧ 0 ≤ p.2 ∧ p.2 ≤ 1 := by
    intro l
    induction l with
    | nil => intro acc hacc p hp; exact hacc p hp
    | cons s rest ih =>
      intro acc hacc p hp
      refine ih _ ?_ p hp
      intro q hq
      rcases seedStep_mem D hq with h1 | h1
      · exact hacc q h1
      · exact h1
  intro p hp
  exact key _ [] (by simp) p hp

/-- The closeness relation of the dedup pass, as a proposition. -/
def CloseProp (p q : ℚ × ℚ) : Prop :=
  |p.1 - q.1| < tol_du ∧ |p.2 - q.2| < tol_du

theorem closePair_false_iff (p q : ℚ × ℚ) : closePair p q = false ↔ ¬CloseProp p q := by
  simp [closePair, CloseProp, not_and_or]

theorem CloseProp.symm {p q : ℚ × ℚ} (h : CloseProp p q) : CloseProp q p := by
  unfold CloseProp at h ⊢
  rw [abs_sub_comm q.1 p.1, abs_sub_comm q.2 p.2]
  exact h

theorem filterInters_pairwise_and_mem (l : List (ℚ × ℚ)) :
    List.Pairwise (fun p q => ¬CloseProp p q) (filterInters l) ∧
      ∀ p ∈ filterInters l, p ∈ l := by
  have key : ∀ (rest acc : List (ℚ × ℚ)),
      List.Pairwise (fun p q => ¬CloseProp p q) acc →
      (∀ p ∈ acc, p ∈ l) → (∀ p ∈ rest, p ∈ l) →
      List.Pairwise (fun p q => ¬CloseProp p q) (rest.foldl dedupStep acc) ∧
        ∀ p ∈ rest.foldl dedupStep acc, p ∈ l := by
    intro rest
    induction rest with
    | nil => intro acc h1 h2 _; exact ⟨h1, h2⟩
    | cons p ps ih =>
      intro acc h1 h2 h3
      refine ih _ ?_ ?_ (fun q hq => h3 q (List.mem_cons_of_mem p hq))
      · unfold dedupStep
        split
        · exact h1
        · rename_i hany
          rw [List.any_eq_true] at hany
          push_neg at hany
          refine List.pairwise_append.2 ⟨h1, List.pairwise_singleton .., ?_⟩
          intro a ha b hb
          rw [List.mem_singleton] at hb
          subst hb
          intro hc
          have hne := hany a ha
          have hfalse : closePair b a = false := by
            cases hcb : closePair b a
            · rfl
            · exact absurd hcb hne
          exact (closePair_false_iff b a).1 hfalse hc.symm
      · intro q hq
        unfold dedupStep at hq
        split at hq
        · exact h2 q hq
        · rcases List.mem_append.1 hq with hq1 | hq1
          · exact h2 q hq1
          · exact (List.mem_singleton.1 hq1) ▸ h3 p (List.mem_cons_self p ps)
  exact key l [] (List.Pairwise.nil) (by simp) (fun p hp => hp)

end IntersectionBeziers

/-- C3: for two non-identical Bezier curves of degree at most 2, every
pair `(u, v)` returned by `intersection_bezier` lies in `[0,1] × [0,1]`,
its two curve points agree within the norm tolerance (`|A(u) - B(v)| ≤
1e-9`, stated exactly as squared norm at most `tol_norm ^ 2`), and no two
distinct returned pairs agree simultaneously in `u` and in `v` within the
`1e-9` parameter tolerance. -/
theorem C3_intersection_pairs_valid
    (cptsa cptsb : List (Pt ℚ))
    (hne : cptsa ≠ cptsb)
    (hlena : cptsa.length ≤ 3) (hlenb : cptsb.length ≤ 3)
    (res : List (ℚ × ℚ))
    (hres : IntersectionBeziers.intersection_bezier cptsa cptsb = some res) :
    (∀ p ∈ res,
        0 ≤ p.1 ∧ p.1 ≤ 1 ∧ 0 ≤ p.2 ∧ p.2 ≤ 1 ∧
          IntersectionBeziers.ptNormSq
              (IntersectionBeziers.bernsteinPt (cptsa.length - 1) cptsa p.1 -
                IntersectionBeziers.bernsteinPt (cptsb.length - 1) cptsb p.2) ≤
            IntersectionBeziers.tol_norm ^ 2) ∧
      List.Pairwise (fun p q => ¬IntersectionBeziers.CloseProp p q) res := by
  unfold IntersectionBeziers.intersection_bezier at hres
  rw [if_neg hne] at hres
  simp only [Option.some.injEq] at hres
  subst hres
  constructor
  · intro p hp
    have h1 := List.mem_of_mem_filter hp
    have h2 := List.of_mem_filter hp
    have h3 := (IntersectionBeziers.filterInters_pairwise_and_mem _).2 p h1
    have h4 := IntersectionBeziers.rawIntersections_mem _ _ _ p h3
    refine ⟨h4.1, h4.2.1, h4.2.2.1, h4.2.2.2, ?_⟩
    simpa [IntersectionBeziers.residualKeep] using h2
  · exact List.Pairwise.filter _
      (IntersectionBeziers.filterInters_pairwise_and_mem _).1

/-- Witness for C3 at two concrete crossing straight segments. -/
theorem C3_intersection_pairs_valid_witness :
    ([((0 : ℚ), (0 : ℚ)), (1, 0)] ≠ [((0 : ℚ), (0 : ℚ)), (0, 1)]) ∧
      ((∀ p ∈ (IntersectionBeziers.intersection_bezier
            [((0 : ℚ), (0 : ℚ)), (1, 0)] [((0 : ℚ), (0 : ℚ)), (0, 1)]).getD [],
          0 ≤ p.1 ∧ p.1 ≤ 1 ∧ 0 ≤ p.2 ∧ p.2 ≤ 1 ∧
            IntersectionBeziers.ptNormSq
                (IntersectionBeziers.bernsteinPt 1 [((0 : ℚ), (0 : ℚ)), (1, 0)] p.1 -
                  IntersectionBeziers.bernsteinPt 1 [((0 : ℚ), (0 : ℚ)), (0, 1)] p.2) ≤
              IntersectionBeziers.tol_norm ^ 2) ∧
        List.Pairwise (fun p q => ¬IntersectionBeziers.CloseProp p q)
          ((IntersectionBeziers.intersection_bezier
            [((0 : ℚ), (0 : ℚ)), (1, 0)] [((0 : ℚ), (0 : ℚ)), (0, 1)]).getD [])) := by
  have hne : [((0 : ℚ), (0 : ℚ)), (1, 0)] ≠ [((0 : ℚ), (0 : ℚ)), (0, 1)] := by
    intro h
    have := List.head_eq_of_cons_eq (List.tail_eq_of_cons_eq h)
    simp [Prod.ext_iff] at this
  have hsome : IntersectionBeziers.intersection_bezier
      [((0 : ℚ), (0 : ℚ)), (1, 0)] [((0 : ℚ), (0 : ℚ)), (0, 1)] =
      some ((IntersectionBeziers.intersection_bezier
        [((0 : ℚ), (0 : ℚ)), (1, 0)] [((0 : ℚ), (0 : ℚ)), (0, 1)]).getD []) := by
    rw [IntersectionBeziers.intersection_bezier, if_neg hne]
    rfl
  exact ⟨hne, C3_intersection_pairs_valid _ _ hne (by simp) (by simp) _ hsome⟩

/-- C6 counterexample: with `degA = 2` and `degB = 1` the seed grid has
`(2+4)*(1+4) = 30` starting pairs, not `(2+3)*(1+3) = 20` as claimed, and
it contains the pair `(5/4, 0)` whose `u` component exceeds `1`. -/
theorem C6_seed_grid_counterexample :
    (IntersectionBeziers.seedPairs 2 1).length = 30 ∧
      ¬((IntersectionBeziers.seedPairs 2 1).length = (2 + 3) * (1 + 3)) ∧
      ((5 : ℚ) / 4, (0 : ℚ)) ∈ IntersectionBeziers.seedPairs 2 1 ∧
      ¬((5 : ℚ) / 4 ≤ 1) := by
  have h30 : (IntersectionBeziers.seedPairs 2 1).length = 30 := by
    norm_num [IntersectionBeziers.seedPairs, IntersectionBeziers.usample,
      IntersectionBeziers.vsample, List.range_succ]
  refine ⟨h30, by rw [h30]; norm_num, ?_, by norm_num⟩
  norm_num [IntersectionBeziers.seedPairs, IntersectionBeziers.usample,
    IntersectionBeziers.vsample, List.range_succ]

namespace IntersectionBeziers

theorem length_bind_const {α β : Type} (l : List α) (f : α → List β) (c : ℕ)
    (h : ∀ a ∈ l, (f a).length = c) : (l.bind f).length = l.length * c := by
  induction l with
  | nil => simp
  | cons a t ih =>
    rw [show (a :: t).bind f = f a ++ t.bind f from rfl, List.length_append,
      h a (List.mem_cons_self a t),
      ih (fun b hb => h b (List.mem_cons_of_mem a hb)), List.length_cons]
    ring

theorem mem_usample {dega degb : ℕ} {u : ℚ} (hu : u ∈ usample dega degb) :
    0 ≤ u ∧ u * ((degb : ℚ) + 3) ≤ (dega : ℚ) + 3 := by
  unfold usample at hu
  rw [List.mem_map] at hu
  obtain ⟨i, hi, rfl⟩ := hu
  rw [List.mem_range] at hi
  have hd : (0 : ℚ) < (degb : ℚ) + 3 := by positivity
  refine ⟨by positivity, ?_⟩
  rw [div_mul_cancel₀ _ (ne_of_gt hd)]
  have hle : i ≤ dega + 3 := by omega
  exact_mod_cast hle

theorem mem_vsample {degb : ℕ} {v : ℚ} (hv : v ∈ vsample degb) :
    0 ≤ v ∧ v ≤ 1 := by
  unfold vsample at hv
  rw [List.mem_map] at hv
  obtain ⟨j, hj, rfl⟩ := hv
  rw [List.mem_range] at hj
  have hd : (0 : ℚ) < (degb : ℚ) + 3 := by positivity
  refine ⟨by positivity, ?_⟩
  rw [div_le_one hd]
  have hle : j ≤ degb + 3 := by omega
  exact_mod_cast hle

end IntersectionBeziers

/-- C6 amended: the intersection search seeds exactly
`(degA+4) × (degB+4)` starting pairs `(i/(degB+3), j/(degB+3))`; every `v`
lies in `[0,1]` while `u` only satisfies `0 ≤ u` and
`u * (degB+3) ≤ degA+3` (so `u` can exceed `1` when `degA > degB`); and
the Newton iteration (budget 10 per seed, modelled as fuel) clamps its
iterates so that every non-aborted final pair lies in `[0,1] × [0,1]`. -/
theorem C6_seed_grid_amended (dega degb : ℕ) :
    (IntersectionBeziers.seedPairs dega degb).length = (dega + 4) * (degb + 4) ∧
      (∀ p ∈ IntersectionBeziers.seedPairs dega degb,
        0 ≤ p.1 ∧ p.1 * ((degb : ℚ) + 3) ≤ (dega : ℚ) + 3 ∧ 0 ≤ p.2 ∧ p.2 ≤ 1) ∧
      (∀ (D : IntersectionBeziers.NewtonIn) (fuel : ℕ) (u v u2 v2 : ℚ),
        IntersectionBeziers.newtonRun D (fuel + 1) u v = some (u2, v2) →
          0 ≤ u2 ∧ u2 ≤ 1 ∧ 0 ≤ v2 ∧ v2 ≤ 1) := by
  refine ⟨?_, ?_, fun D fuel u v u2 v2 h =>
    IntersectionBeziers.newtonRun_some_clamped D fuel u v u2 v2 h⟩
  · have hconst : ∀ u ∈ IntersectionBeziers.usample dega degb,
        ((IntersectionBeziers.vsample degb).map (fun v => (u, v))).length = degb + 4 := by
      intro u _
      rw [List.length_map, IntersectionBeziers.vsample, List.length_map, List.length_range]
    rw [IntersectionBeziers.seedPairs,
      IntersectionBeziers.length_bind_const _ _ _ hconst,
      IntersectionBeziers.usample, List.length_map, List.length_range]
  · intro p hp
    rw [IntersectionBeziers.seedPairs, List.mem_bind] at hp
    obtain ⟨u, hu, hp⟩ := hp
    rw [List.mem_map] at hp
    obtain ⟨v, hv, rfl⟩ := hp
    have hub := IntersectionBeziers.mem_usample hu
    have hvb := IntersectionBeziers.mem_vsample hv
    exact ⟨hub.1, hub.2, hvb.1, hvb.2⟩

/-- Witness for C6 amended: the Newton clamp conjunct applied to a
concrete run that converges in one iteration. -/
theorem C6_seed_grid_amended_witness :
    0 ≤ (0 : ℚ) ∧ (0 : ℚ) ≤ 1 ∧ 0 ≤ (0 : ℚ) ∧ (0 : ℚ) ≤ 1 := by
  have hstep : IntersectionBeziers.newtonStep
      ⟨0, 0, [((0 : ℚ), (0 : ℚ))], [(1, 0)], [(0, 0)], [(0, 0)], [(0, 1)], [(0, 0)]⟩
      0 0 = IntersectionBeziers.StepRes.done 0 0 := by
    norm_num [IntersectionBeziers.newtonStep, IntersectionBeziers.eval_bezier,
      IntersectionBeziers.contract, pdot, IntersectionBeziers.clamp01,
      IntersectionBeziers.limit_denominator, IntersectionBeziers.max_denom,
      IntersectionBeziers.tol_du, List.range_succ]
  have hrun : IntersectionBeziers.newtonRun
      ⟨0, 0, [((0 : ℚ), (0 : ℚ))], [(1, 0)], [(0, 0)], [(0, 0)], [(0, 1)], [(0, 0)]⟩
      1 0 0 = some (0, 0) := by
    simp only [IntersectionBeziers.newtonRun]
    rw [hstep]
  exact (C6_seed_grid_amended 1 1).2.2
    ⟨0, 0, [((0 : ℚ), (0 : ℚ))], [(1, 0)], [(0, 0)], [(0, 0)], [(0, 1)], [(0, 0)]⟩
    0 0 0 0 0 hrun

/-- `np.arctan2(y, x)`: the two argument arctangent with range `(-π, π]`
(modelled exactly over `ℝ`). -/
noncomputable def arctan2 (y x : ℝ) : ℝ :=
  if 0 < x then Real.arctan (y / x)
  else if x < 0 then
    (if 0 ≤ y then Real.arctan (y / x) + Real.pi else Real.arctan (y / x) - Real.pi)
  else
    (if 0 < y then Real.pi / 2 else if y < 0 then -(Real.pi / 2) else 0)

/-- `math.tau = 2π`. -/
noncomputable def mtau : ℝ := 2 * Real.pi

theorem arctan_nonpos_of {x : ℝ} (h : x ≤ 0) : Real.arctan x ≤ 0 := by
  have hm := Real.arctan_strictMono.monotone h
  rwa [Real.arctan_zero] at hm

theorem arctan_nonneg_of {x : ℝ} (h : 0 ≤ x) : 0 ≤ Real.arctan x := by
  have hm := Real.arctan_strictMono.monotone h
  rwa [Real.arctan_zero] at hm

theorem arctan_pos_of {x : ℝ} (h : 0 < x) : 0 < Real.arctan x := by
  have hm := Real.arctan_strictMono h
  rwa [Real.arctan_zero] at hm

theorem arctan2_mem (y x : ℝ) : -Real.pi < arctan2 y x ∧ arctan2 y x ≤ Real.pi := by
  have hpi := Real.pi_pos
  have h1 := Real.neg_pi_div_two_lt_arctan (y / x)
  have h2 := Real.arctan_lt_pi_div_two (y / x)
  unfold arctan2
  split
  · constructor <;> nlinarith
  · split
    · rename_i hx0 hxneg
      split
      · rename_i hy
        have hyx : y / x ≤ 0 := div_nonpos_iff.2 (Or.inl ⟨hy, le_of_lt hxneg⟩)
        have := arctan_nonpos_of hyx
        constructor <;> nlinarith
      · rename_i hy
        push_neg at hy
        have := arctan_pos_of (div_pos_of_neg_of_neg hy hxneg)
        constructor <;> nlinarith
    · split
      · constructor <;> nlinarith
      · split
        · constructor <;> nlinarith
        · constructor <;> nlinarith

namespace IntegratePlanar

/-- `IntegratePlanar.winding_number_linear` of `curve.py`: the angles of
the two endpoints via `arctan2`, their difference over `τ`, wrapped by the
`abs(wind) < 0.5` branch. -/
noncomputable def winding_number_linear (pointa pointb : Pt ℝ) : ℝ :=
  let anglea := arctan2 pointa.2 pointa.1
  let angleb := arctan2 pointb.2 pointb.1
  let wind := (angleb - anglea) / mtau
  if |wind| < 1 / 2 then wind
  else if 0 < wind then wind - 1 else wind + 1

end IntegratePlanar

/-- C5 counterexample: for `a = (1, 0)`, `b = (-1, 0)` (subtended angle
exactly `π`) the code returns `-1/2`, which lies outside the claimed
half open interval `(-0.5, 0.5]`. -/
theorem C5_wrap_counterexample :
    IntegratePlanar.winding_number_linear (1, 0) (-1, 0) = -(1 / 2) ∧
      ¬(-(1 / 2) < IntegratePlanar.winding_number_linear (1, 0) (-1, 0)) ∧
      ((1 : ℝ), (0 : ℝ)) ≠ (0 : Pt ℝ) ∧ ((-1 : ℝ), (0 : ℝ)) ≠ (0 : Pt ℝ) := by
  have hpi := Real.pi_pos
  have ha : arctan2 (0 : ℝ) (1 : ℝ) = 0 := by
    unfold arctan2
    rw [if_pos one_pos]
    simp [Real.arctan_zero]
  have hb : arctan2 (0 : ℝ) (-1 : ℝ) = Real.pi := by
    unfold arctan2
    rw [if_neg (by norm_num), if_pos (by norm_num), if_pos (le_refl 0)]
    simp [Real.arctan_zero]
  have hpi2 : Real.pi / (2 * Real.pi) = 1 / 2 := by
    rw [div_eq_iff (by positivity : (2 : ℝ) * Real.pi ≠ 0)]
    ring
  have hval : IntegratePlanar.winding_number_linear (1, 0) (-1, 0) = -(1 / 2) := by
    unfold IntegratePlanar.winding_number_linear
    norm_num [ha, hb, mtau, hpi2]
    exact le_of_eq (abs_of_pos (by norm_num : (0 : ℝ) < 1 / 2)).symm
  exact ⟨hval, by rw [hval]; exact lt_irrefl _, by simp [Prod.ext_iff], by simp [Prod.ext_iff]⟩

/-- C5 amended: for endpoints away from the origin,
`winding_number_linear` differs from the subtended angle formula
`(θ_b - θ_a)/2π` by an integer, and is wrapped into the closed interval
`[-0.5, 0.5]` (both endpoints attainable, not the half open
`(-0.5, 0.5]`). -/
theorem C5_wrap_amended (a b : Pt ℝ) (ha : a ≠ (0 : Pt ℝ)) (hb : b ≠ (0 : Pt ℝ)) :
    ∃ n : ℤ, IntegratePlanar.winding_number_linear a b =
        (arctan2 b.2 b.1 - arctan2 a.2 a.1) / mtau + n ∧
      -(1 / 2) ≤ IntegratePlanar.winding_number_linear a b ∧
      IntegratePlanar.winding_number_linear a b ≤ 1 / 2 := by
  have hpi := Real.pi_pos
  have hba := arctan2_mem b.2 b.1
  have haa := arctan2_mem a.2 a.1
  have hmt : mtau = 2 * Real.pi := rfl
  have htau : (0 : ℝ) < mtau := by rw [hmt]; positivity
  unfold IntegratePlanar.winding_number_linear
  set w : ℝ := (arctan2 b.2 b.1 - arctan2 a.2 a.1) / mtau with hwdef
  have hw1 : -1 < w := by
    rw [hwdef, lt_div_iff htau]
    rw [hmt]
    linarith [hba.1, haa.2]
  have hw2 : w < 1 := by
    rw [hwdef, div_lt_one htau]
    rw [hmt]
    linarith [hba.2, haa.1]
  by_cases habs : |w| < 1 / 2
  · have hb2 := abs_lt.1 habs
    refine ⟨0, ?_, ?_, ?_⟩
    · rw [if_pos habs]
      norm_num
    · rw [if_pos habs]
      linarith [hb2.1]
    · rw [if_pos habs]
      linarith [hb2.2]
  · push_neg at habs
    by_cases hpos : 0 < w
    · have hge : 1 / 2 ≤ w := by rwa [abs_of_pos hpos] at habs
      refine ⟨-1, ?_, ?_, ?_⟩
      · rw [if_neg (not_lt.2 habs), if_pos hpos]
        push_cast
        ring
      · rw [if_neg (not_lt.2 habs), if_pos hpos]
        linarith
      · rw [if_neg (not_lt.2 habs), if_pos hpos]
        linarith
    · have hle : w ≤ -(1 / 2) := by
        rw [abs_of_nonpos (not_lt.1 hpos)] at habs
        linarith
      refine ⟨1, ?_, ?_, ?_⟩
      · rw [if_neg (not_lt.2 habs), if_neg hpos]
        push_cast
        ring
      · rw [if_neg (not_lt.2 habs), if_neg hpos]
        linarith
      · rw [if_neg (not_lt.2 habs), if_neg hpos]
        linarith

/-- Witness for C5 amended at `a = (1, 0)`, `b = (0, 1)`. -/
theorem C5_wrap_amended_witness :
    ((1 : ℝ), (0 : ℝ)) ≠ (0 : Pt ℝ) ∧ ((0 : ℝ), (1 : ℝ)) ≠ (0 : Pt ℝ) ∧
      ∃ n : ℤ, IntegratePlanar.winding_number_linear (1, 0) (0, 1) =
          (arctan2 (0, 1).2 (0, 1).1 - arctan2 (1, 0).2 (1, 0).1) / mtau + n ∧
        -(1 / 2) ≤ IntegratePlanar.winding_number_linear (1, 0) (0, 1) ∧
        IntegratePlanar.winding_number_linear (1, 0) (0, 1) ≤ 1 / 2 :=
  ⟨by simp [Prod.ext_iff], by simp [Prod.ext_iff],
    C5_wrap_amended (1, 0) (0, 1) (by simp [Prod.ext_iff]) (by simp [Prod.ext_iff])⟩

/-- A segment: the control point list of one `PlanarCurve` (degree ≤ 2 in
the system, enforced by `BezierCurve.__init__`). -/
abbrev Seg := List (Pt ℝ)

/-- A jordan curve, by its list of segments (`JordanCurve.segments`),
cache free (the cached view is `JCState` below). -/
abbrev Jordan := List Seg

/-- The `degree_decrease` oracle over `ℝ` (external `compmec.nurbs`). -/
abbrev DdOR := ℕ → ℕ → List (List ℝ) × List (List ℝ)

/-- The float literal `1e-9` used as segment cleaning tolerance. -/
noncomputable def tol9R : ℝ := 1 / 10 ^ 9

/-- The float literal `1e-6` used as the positional tolerance. -/
noncomputable def tol6R : ℝ := 1 / 10 ^ 6

/-- The quadrature tables of the external `compmec.nurbs` collaborator:
`nc n` the `open_linspace` nodes with `open_newton_cotes` weights and
`cheb n` the Chebyshev nodes and weights, as (node, weight) pairs. -/
structure Quad where
  nc : ℕ → List (ℝ × ℝ)
  cheb : ℕ → List (ℝ × ℝ)

/-- A quadrature table is symmetric when its (node, weight) list is a
permutation of its reflection `u ↦ 1 - u` (true of open Newton Cotes and
Chebyshev tables; needed for curve reversal to negate the area). -/
def SymQuad (quad : Quad) : Prop :=
  ∀ n, List.Perm (quad.nc n) ((quad.nc n).map (fun uw => (1 - uw.1, uw.2)))

/-- Pointwise evaluation of a Bezier curve (the single node case of
`BezierCurve.eval`). -/
noncomputable def evalPt (cpts : Seg) (node : ℝ) : Pt ℝ :=
  Math.horner_method node (BezierCurve.canonPts cpts)

/-- Modelled from the spec: `derivate` is exact, through the precomputed
`nurbs` differentiation matrix; for Bezier control points `P` of degree
`p ≥ 1` it yields `p * (P[i+1] - P[i])`, and for degree `0` the zero
matrix branch of `Derivate.non_rational_bezier` yields one zero point. -/
noncomputable def derivCtrl (cpts : Seg) : Seg :=
  if cpts.length ≤ 1 then [0]
  else (cpts.zip cpts.tail).map (fun pq => ((cpts.length - 1 : ℕ) : ℝ) • (pq.2 - pq.1))

/-- The euclidean norm `abs(Point2D)` (modelled from the spec). -/
noncomputable def ptAbs (p : Pt ℝ) : ℝ := Real.sqrt (p.1 ^ 2 + p.2 ^ 2)

namespace IntegratePlanar

/-- `IntegratePlanar.vertical`: the quadrature sum for
`∫ x^expx y^expy dy` along one segment, with the default
`nnodes = 3 + expx + expy + degree`. -/
noncomputable def vertical (quad : Quad) (cpts : Seg) (expx expy : ℕ)
    (nnodes : Option ℕ) : ℝ :=
  let n := nnodes.getD (3 + expx + expy + (cpts.length - 1))
  let dc := derivCtrl cpts
  ((quad.nc n).map (fun uw =>
    uw.2 * ((evalPt cpts uw.1).1 ^ expx * (evalPt cpts uw.1).2 ^ expy *
      (evalPt dc uw.1).2))).sum

/-- `IntegratePlanar.polynomial` at `expx = expy = 0` (the only allowed
exponents): the quadrature sum of `abs(derivative)`, with default
`nnodes = 3 + degree`. -/
noncomputable def lenght (quad : Quad) (cpts : Seg) (nnodes : Option ℕ) : ℝ :=
  let n := nnodes.getD (3 + (cpts.length - 1))
  let dc := derivCtrl cpts
  ((quad.nc n).map (fun uw => uw.2 * ptAbs (evalPt dc uw.1))).sum

/-- `IntegratePlanar.area = vertical(curve, 1, 0, nnodes)`. -/
noncomputable def area (quad : Quad) (cpts : Seg) (nnodes : Option ℕ) : ℝ :=
  vertical quad cpts 1 0 nnodes

end IntegratePlanar

namespace IntegrateJordan

/-- `IntegrateJordan.lenght`: sum of the per segment length integrals
(called with `nnodes = None`). -/
noncomputable def lenght (quad : Quad) (segs : Jordan) : ℝ :=
  (segs.map (fun s => IntegratePlanar.lenght quad s none)).sum

/-- `IntegrateJordan.area`: sum of the per segment area integrals. -/
noncomputable def area (quad : Quad) (segs : Jordan) : ℝ :=
  (segs.map (fun s => IntegratePlanar.area quad s none)).sum

end IntegrateJordan

/-- The value of the `JordanCurve.lenght` property when freshly computed:
the raw arc length if the enclosed signed area is positive, else its
negation (`jordancurve.py` lines 422 to 428). -/
noncomputable def lenghtVal (quad : Quad) (segs : Jordan) : ℝ :=
  if 0 < IntegrateJordan.area quad segs then IntegrateJordan.lenght quad segs
  else -(IntegrateJordan.lenght quad segs)

/-- C7: the `lenght` property returns the total arc length (the sum of per
segment length integrals) signed by the enclosed area: the raw arc length
when the area is positive, its negation otherwise; in absolute value it is
the arc length, and when the arc length is positive, `lenght > 0` holds
exactly when the boundary is counter clockwise oriented (positive signed
area). -/
theorem C7_lenght_signed_by_area (quad : Quad) (segs : Jordan) :
    lenghtVal quad segs =
      (if 0 < IntegrateJordan.area quad segs then IntegrateJordan.lenght quad segs
        else -(IntegrateJordan.lenght quad segs)) ∧
      (0 < IntegrateJordan.lenght quad segs →
        (|lenghtVal quad segs| = IntegrateJordan.lenght quad segs ∧
          (0 < lenghtVal quad segs ↔ 0 < IntegrateJordan.area quad segs))) := by
  refine ⟨rfl, fun hpos => ⟨?_, ?_⟩⟩
  · unfold lenghtVal
    split
    · exact abs_of_pos hpos
    · rw [abs_neg]
      exact abs_of_pos hpos
  · unfold lenghtVal
    split
    · rename_i h
      exact ⟨fun _ => h, fun _ => hpos⟩
    · rename_i h
      constructor
      · intro hc
        linarith
      · intro hc
        exact absurd hc h

/-- The one point midpoint rule (node 1/2, weight 1), a symmetric
quadrature instance used by the concrete witnesses. -/
noncomputable def quadMid : Quad := ⟨fun _ => [(1 / 2, 1)], fun _ => [(1 / 2, 1)]⟩

/-- The unit square boundary as four degree 1 segments. -/
noncomputable def unitSquare : Jordan :=
  [[(0, 0), (1, 0)], [(1, 0), (1, 1)], [(1, 1), (0, 1)], [(0, 1), (0, 0)]]

theorem evalPt_single (p : Pt ℝ) (u : ℝ) : evalPt [p] u = p := by
  simp [evalPt, BezierCurve.canonPts, Math.horner_method, Math.caractEntry,
    Math.comb, List.range_succ, List.enum, List.enumFrom]

theorem evalPt_pair (p q : Pt ℝ) (u : ℝ) : evalPt [p, q] u = u • (q - p) + p := by
  simp [evalPt, BezierCurve.canonPts, Math.horner_method, Math.caractEntry,
    Math.comb, List.range_succ, List.enum, List.enumFrom]
  rw [Prod.ext_iff]
  constructor <;> (simp [smul_eq_mul]; ring)

theorem derivCtrl_pair (p q : Pt ℝ) : derivCtrl [p, q] = [q - p] := by
  simp [derivCtrl]

theorem unitSquare_lenght : IntegrateJordan.lenght quadMid unitSquare = 4 := by
  simp only [IntegrateJordan.lenght, unitSquare, IntegratePlanar.lenght, quadMid,
    derivCtrl_pair, evalPt_single, List.map_cons, List.map_nil, ptAbs]
  norm_num [Real.sqrt_one]

theorem unitSquare_area : IntegrateJordan.area quadMid unitSquare = 1 := by
  simp only [IntegrateJordan.area, unitSquare, IntegratePlanar.area,
    IntegratePlanar.vertical, quadMid, derivCtrl_pair, evalPt_single, evalPt_pair,
    List.map_cons, List.map_nil]
  norm_num

/-- Witness for C7 at the unit square with the midpoint rule. -/
theorem C7_lenght_signed_by_area_witness :
    0 < IntegrateJordan.lenght quadMid unitSquare ∧
      (|lenghtVal quadMid unitSquare| = IntegrateJordan.lenght quadMid unitSquare ∧
        (0 < lenghtVal quadMid unitSquare ↔ 0 < IntegrateJordan.area quadMid unitSquare)) :=
  ⟨by rw [unitSquare_lenght]; norm_num,
    (C7_lenght_signed_by_area quadMid unitSquare).2 (by rw [unitSquare_lenght]; norm_num)⟩

/-- Oracle for `BezierCurve.split` (external `compmec.nurbs` curve
splitting): the two sub-segment control point lists. -/
abbrev SplitO := Seg → ℝ → Seg × Seg

/-- Oracle for `PlanarCurve.unite` (external `compmec.nurbs` knot
removal): `none` is the `ValueError` of a failed union. -/
abbrev UniteO := Seg → Seg → Option Seg

/-- The `JordanCurve.segments` setter: cleans each incoming segment with
the default `1e-9` tolerance and rebuilds fresh curves (the endpoint
chain assertion is a precondition, not modelled). -/
noncomputable def setSegments (ddO : DdOR) (segs : List Seg) : Jordan :=
  segs.map (BezierCurve.clean ddO (some tol9R))

theorem clean_short {K : Type} [LinearOrderedField K]
    (ddO : ℕ → ℕ → List (List K) × List (List K)) (tol : Option K)
    (cpts : List (Pt K)) (h : cpts.length ≤ 2) :
    BezierCurve.clean ddO tol cpts = cpts := by
  unfold BezierCurve.clean
  have hd : cpts.length - 1 = 0 ∨ cpts.length - 1 = 1 := by omega
  rcases hd with h1 | h1 <;> rw [h1] <;> simp [BezierCurve.cleanTimes]

theorem setSegments_short (ddO : DdOR) (segs : List Seg)
    (h : ∀ s ∈ segs, s.length ≤ 2) : setSegments ddO segs = segs := by
  unfold setSegments
  calc segs.map (BezierCurve.clean ddO (some tol9R))
      = segs.map id := List.map_congr_left (fun s hs => clean_short ddO _ s (h s hs))
    _ = segs := List.map_id segs

/-- The mutable state of one `JordanCurve` object: its stored segments
and the two caches (`__lenght` and `__vertices`). -/
structure JCState where
  segs : Jordan
  cLen : Option ℝ
  cVerts : Option (List (Pt ℝ))

namespace JordanCurve

/-- `JordanCurve.from_segments`: the setter resets both caches. -/
noncomputable def from_segments (ddO : DdOR) (segs : List Seg) : JCState :=
  ⟨setSegments ddO segs, none, none⟩

/-- The `lenght` property: returns the cached value when present,
otherwise computes the signed length and stores it. -/
noncomputable def lenghtRead (quad : Quad) (st : JCState) : ℝ × JCState :=
  match st.cLen with
  | some L => (L, st)
  | none => (lenghtVal quad st.segs, ⟨st.segs, some (lenghtVal quad st.segs), st.cVerts⟩)

/-- The `vertices` computation: control points deduplicated in order. -/
noncomputable def verticesCompute (segs : Jordan) : List (Pt ℝ) :=
  segs.foldl (fun acc s =>
    s.foldl (fun acc2 p => if p ∈ acc2 then acc2 else acc2 ++ [p]) acc) []

/-- The `vertices` property value (cache or fresh computation). -/
noncomputable def verticesOf (st : JCState) : List (Pt ℝ) :=
  st.cVerts.getD (verticesCompute st.segs)

/-- `JordanCurve.scale`.  Modelled from the spec: the vertex objects are
aliased into the segment control points, so scaling every vertex in place
scales every control point; the length cache is not touched. -/
noncomputable def scaleState (st : JCState) (xs ys : ℝ) : JCState :=
  ⟨st.segs.map (fun s => s.map (fun p => (p.1 * xs, p.2 * ys))),
    st.cLen, some ((verticesOf st).map (fun p => (p.1 * xs, p.2 * ys)))⟩

/-- `JordanCurve.move` (same aliasing model as `scale`). -/
noncomputable def moveState (st : JCState) (d : Pt ℝ) : JCState :=
  ⟨st.segs.map (fun s => s.map (fun p => p + d)),
    st.cLen, some ((verticesOf st).map (fun p => p + d))⟩

/-- `JordanCurve.rotate` (same aliasing model as `scale`). -/
noncomputable def rotState (st : JCState) (angle : ℝ) (degrees : Bool) : JCState :=
  let a := if degrees then angle * Real.pi / 180 else angle
  let rot : Pt ℝ → Pt ℝ := fun p =>
    (Real.cos a * p.1 - Real.sin a * p.2, Real.sin a * p.1 + Real.cos a * p.2)
  ⟨st.segs.map (fun s => s.map rot), st.cLen, some ((verticesOf st).map rot)⟩

/-- `JordanCurve.invert`: each segment inverted, in reversed order,
reassigned through the setter (which resets the caches). -/
noncomputable def invertState (ddO : DdOR) (st : JCState) : JCState :=
  ⟨setSegments ddO ((st.segs.map List.reverse).reverse), none, none⟩

/-- The splitting loop of `JordanCurve.split`: nodes within `1e-6` of an
end are skipped, otherwise the indexed segment is replaced by its two
halves (via the split oracle) and later indices shift by `inserted`. -/
noncomputable def splitSegsAux (splitO : SplitO) :
    List (ℕ × ℝ) → List Seg → ℕ → List Seg
  | [], segs, _ => segs
  | (idx, node) :: rest, segs, inserted =>
    if |node| < tol6R ∨ |node - 1| < tol6R then splitSegsAux splitO rest segs inserted
    else
      let k := idx + inserted
      let pr := splitO (segs.getD k []) node
      splitSegsAux splitO rest ((segs.set k pr.1).insertNth (k + 1) pr.2) (inserted + 1)

/-- `JordanCurve.split`: ends with the segments setter (cache reset). -/
noncomputable def splitState (ddO : DdOR) (splitO : SplitO) (st : JCState)
    (indexs : List ℕ) (nodes : List ℝ) : JCState :=
  ⟨setSegments ddO (splitSegsAux splitO (indexs.zip nodes) st.segs 0), none, none⟩

/-- One scan of the `JordanCurve.clean` unification loop: the first
adjacent pair (cyclically) that unites yields the shortened list. -/
noncomputable def findUnite (uniteO : UniteO) (segs : List Seg) : Option (List Seg) :=
  (List.range segs.length).foldl (fun acc i =>
    match acc with
    | some r => some r
    | none =>
      match uniteO (segs.getD i []) (segs.getD ((i + 1) % segs.length) []) with
      | none => none
      | some merged => some ((segs.set i merged).eraseIdx ((i + 1) % segs.length))) none

/-- The `while True` loop of `JordanCurve.clean`; each successful union
shortens the list, so fuel `segs.length` can never be exhausted. -/
noncomputable def cleanLoop (uniteO : UniteO) : ℕ → List Seg → List Seg
  | 0, segs => segs
  | fuel + 1, segs =>
    match findUnite uniteO segs with
    | none => segs
    | some segs2 => cleanLoop uniteO fuel segs2

/-- `JordanCurve.clean`: per segment degree reduction, the unification
loop, then the segments setter (cache reset). -/
noncomputable def cleanState (ddO : DdOR) (uniteO : UniteO) (st : JCState) : JCState :=
  let cleaned := st.segs.map (BezierCurve.clean ddO (some tol9R))
  ⟨setSegments ddO (cleanLoop uniteO cleaned.length cleaned), none, none⟩

end JordanCurve

/-- A trivial degree change oracle (its value is irrelevant for polygonal
segments, whose cleaning is a no-op). -/
noncomputable def ddOTriv : DdOR := fun _ _ => ([], [])

theorem unitSquare_polygonal : ∀ s ∈ unitSquare, s.length ≤ 2 := by
  intro s hs
  simp only [unitSquare, List.mem_cons, List.not_mem_nil, or_false] at hs
  rcases hs with rfl | rfl | rfl | rfl <;> simp

theorem unitSquare_lenghtVal : lenghtVal quadMid unitSquare = 4 := by
  unfold lenghtVal
  rw [unitSquare_area, unitSquare_lenght]
  norm_num

/-- The scaled square `scale(2,2)` of the unit square. -/
noncomputable def scaledSquare : Jordan :=
  [[(0, 0), (2, 0)], [(2, 0), (2, 2)], [(2, 2), (0, 2)], [(0, 2), (0, 0)]]

theorem unitSquare_scaled :
    unitSquare.map (fun s => s.map (fun p : Pt ℝ => (p.1 * 2, p.2 * 2))) = scaledSquare := by
  simp only [unitSquare, scaledSquare, List.map_cons, List.map_nil]
  norm_num

theorem scaledSquare_lenghtVal : lenghtVal quadMid scaledSquare = 8 := by
  have harea : IntegrateJordan.area quadMid scaledSquare = 4 := by
    simp only [IntegrateJordan.area, scaledSquare, IntegratePlanar.area,
      IntegratePlanar.vertical, quadMid, derivCtrl_pair, evalPt_single, evalPt_pair,
      List.map_cons, List.map_nil]
    norm_num
  have hlen : IntegrateJordan.lenght quadMid scaledSquare = 8 := by
    simp only [IntegrateJordan.lenght, scaledSquare, IntegratePlanar.lenght, quadMid,
      derivCtrl_pair, evalPt_single, List.map_cons, List.map_nil, ptAbs]
    have h4 : Real.sqrt 4 = 2 := by
      rw [show (4 : ℝ) = 2 ^ 2 by norm_num]
      exact Real.sqrt_sq (by norm_num)
    norm_num [h4]
  unfold lenghtVal
  rw [harea, hlen]
  norm_num

/-- C4 counterexample: on the unit square, after reading `lenght`
(caching the value `4`) and then calling `scale(2, 2)`, a subsequent
`lenght` read still returns the stale `4`, while the mutated geometry has
signed length `8 = 2L`; so `scale` does not invalidate the length cache
and the claim fails. -/
theorem C4_stale_cache_counterexample :
    (JordanCurve.lenghtRead quadMid (JordanCurve.from_segments ddOTriv unitSquare)).1 = 4 ∧
      (JordanCurve.lenghtRead quadMid (JordanCurve.scaleState
        (JordanCurve.lenghtRead quadMid
          (JordanCurve.from_segments ddOTriv unitSquare)).2 2 2)).1 = 4 ∧
      lenghtVal quadMid (JordanCurve.scaleState
        (JordanCurve.lenghtRead quadMid
          (JordanCurve.from_segments ddOTriv unitSquare)).2 2 2).segs = 8 ∧
      ¬((JordanCurve.lenghtRead quadMid (JordanCurve.scaleState
        (JordanCurve.lenghtRead quadMid
          (JordanCurve.from_segments ddOTriv unitSquare)).2 2 2)).1 =
        2 * (JordanCurve.lenghtRead quadMid
          (JordanCurve.from_segments ddOTriv unitSquare)).1) := by
  have hset : setSegments ddOTriv unitSquare = unitSquare :=
    setSegments_short ddOTriv unitSquare unitSquare_polygonal
  have hst0 : JordanCurve.from_segments ddOTriv unitSquare =
      ⟨unitSquare, none, none⟩ := by
    unfold JordanCurve.from_segments
    rw [hset]
  have hread0 : JordanCurve.lenghtRead quadMid (JordanCurve.from_segments ddOTriv unitSquare) =
      (4, ⟨unitSquare, some 4, none⟩) := by
    rw [hst0]
    unfold JordanCurve.lenghtRead
    simp [unitSquare_lenghtVal]
  have hscaled : (JordanCurve.scaleState (⟨unitSquare, some 4, none⟩ : JCState) 2 2).segs =
      scaledSquare := by
    unfold JordanCurve.scaleState
    simpa using unitSquare_scaled
  have hcache : (JordanCurve.scaleState (⟨unitSquare, some 4, none⟩ : JCState) 2 2).cLen =
      some 4 := rfl
  have hread2 : (JordanCurve.lenghtRead quadMid
      (JordanCurve.scaleState (⟨unitSquare, some 4, none⟩ : JCState) 2 2)).1 = 4 := by
    unfold JordanCurve.lenghtRead
    rw [hcache]
  refine ⟨by rw [hread0], ?_, ?_, ?_⟩
  · rw [hread0]
    exact hread2
  · rw [hread0, hscaled]
    exact scaledSquare_lenghtVal
  · rw [hread0]
    rw [hread2]
    norm_num

/-- C4 amended: `invert`, `clean` and `split` reassign the segments
through the setter and so reset the caches (a following `lenght` read
recomputes from the mutated geometry); but `move`, `scale` and `rotate`
mutate the points in place without touching the length cache, so a
previously cached `lenght` is returned unchanged after them. -/
theorem C4_cache_invalidation_amended (quad : Quad) (ddO : DdOR) (uniteO : UniteO)
    (splitO : SplitO) (st : JCState) (L : ℝ) (xs ys : ℝ) (d : Pt ℝ) (angle : ℝ)
    (degrees : Bool) (indexs : List ℕ) (nodes : List ℝ) :
    (st.cLen = some L →
      (JordanCurve.lenghtRead quad (JordanCurve.scaleState st xs ys)).1 = L ∧
        (JordanCurve.lenghtRead quad (JordanCurve.moveState st d)).1 = L ∧
        (JordanCurve.lenghtRead quad (JordanCurve.rotState st angle degrees)).1 = L) ∧
      (JordanCurve.invertState ddO st).cLen = none ∧
      (JordanCurve.cleanState ddO uniteO st).cLen = none ∧
      (JordanCurve.splitState ddO splitO st indexs nodes).cLen = none ∧
      (JordanCurve.lenghtRead quad (JordanCurve.invertState ddO st)).1 =
        lenghtVal quad (JordanCurve.invertState ddO st).segs ∧
      (JordanCurve.lenghtRead quad (JordanCurve.cleanState ddO uniteO st)).1 =
        lenghtVal quad (JordanCurve.cleanState ddO uniteO st).segs ∧
      (JordanCurve.lenghtRead quad (JordanCurve.splitState ddO splitO st indexs nodes)).1 =
        lenghtVal quad (JordanCurve.splitState ddO splitO st indexs nodes).segs := by
  have hcached : ∀ st2 : JCState, st2.cLen = some L →
      (JordanCurve.lenghtRead quad st2).1 = L := by
    intro st2 hc2
    simp [JordanCurve.lenghtRead, hc2]
  refine ⟨fun hc => ⟨hcached _ hc, hcached _ hc, hcached _ hc⟩,
    rfl, rfl, rfl, rfl, rfl, rfl⟩

/-- Witness for C4 amended at the unit square with a cached length. -/
theorem C4_cache_invalidation_amended_witness :
    (JordanCurve.lenghtRead quadMid
        (JordanCurve.scaleState (⟨unitSquare, some 4, none⟩ : JCState) 2 2)).1 = (4 : ℝ) ∧
      (JordanCurve.invertState ddOTriv (⟨unitSquare, some 4, none⟩ : JCState)).cLen = none :=
  ⟨((C4_cache_invalidation_amended quadMid ddOTriv (fun _ _ => none)
      (fun s _ => (s, s)) (⟨unitSquare, some 4, none⟩ : JCState) 4 2 2 (0, 0) 0 false
      [] []).1 rfl).1,
    (C4_cache_invalidation_amended quadMid ddOTriv (fun _ _ => none)
      (fun s _ => (s, s)) (⟨unitSquare, some 4, none⟩ : JCState) 4 2 2 (0, 0) 0 false
      [] []).2.1⟩

namespace FollowPath

/-- The total number of segments across a jordan list (the finite index
space that bounds the path length). -/
def totalSegs {σ : Type} (jordans : List (List σ)) : ℕ :=
  (jordans.map List.length).sum

/-- A (jordan index, segment index) pair lying in the valid index space. -/
def ValidPair {σ : Type} (jordans : List (List σ)) (p : ℕ × ℕ) : Prop :=
  p.1 < jordans.length ∧ p.2 < (jordans.getD p.1 []).length

/-- The `while True` loop of `FollowPath.pursue_path`, as fuel recursion
(`none` = fuel exhausted; the theorem shows fuel `totalSegs + 1` always
suffices).  Parameters: `lastPt`/`startPt` read `segment.ctrlpoints[-1]`
and `segment.ctrlpoints[0]`; `jmem` is the boundary membership test
`last_point in jordan` (`JordanCurve.__contains__`); `peq` is
`Point2D.__eq__` (tolerance equality, in the absent `polygon.py`,
modelled from the spec as an arbitrary predicate — the claim holds for
every instantiation).  One iteration: wrap the segment index, stop if the
pair is already in the matrix, else append it and either jump to the
first other jordan containing the segment end point (resuming at the
first segment starting there, or at the current index if none starts
there) or advance to the next segment. -/
def pursueLoop {σ π : Type} [Inhabited σ] (jordans : List (List σ))
    (lastPt startPt : σ → π)
    (jmem : List σ → π → Bool) (peq : π → π → Bool) :
    ℕ → List (ℕ × ℕ) → ℕ → ℕ → Option (List (ℕ × ℕ))
  | 0, _, _, _ => none
  | fuel + 1, matrix, ij, is0 =>
    let segsj := jordans.getD ij []
    let is1 := is0 % segsj.length
    if (ij, is1) ∈ matrix then some matrix
    else
      let matrix2 := matrix ++ [(ij, is1)]
      let seg := segsj.getD is1 default
      let last := lastPt seg
      match (List.range jordans.length).find?
          (fun i => decide (i ≠ ij) && jmem (jordans.getD i []) last) with
      | none => pursueLoop jordans lastPt startPt jmem peq fuel matrix2 ij (is1 + 1)
      | some i2 =>
        let segs2 := jordans.getD i2 []
        let is2 := ((List.range segs2.length).find?
          (fun j => peq (startPt (segs2.getD j seg)) last)).getD is1
        pursueLoop jordans lastPt startPt jmem peq fuel matrix2 i2 is2

/-- `FollowPath.pursue_path` run with fuel `totalSegs + 1`. -/
def pursue_path {σ π : Type} [Inhabited σ] (jordans : List (List σ)) (lastPt startPt : σ → π)
    (jmem : List σ → π → Bool) (peq : π → π → Bool)
    (index_jordan index_segment : ℕ) : Option (List (ℕ × ℕ)) :=
  pursueLoop jordans lastPt startPt jmem peq (totalSegs jordans + 1) []
    index_jordan index_segment

theorem sum_range_getD_length {σ : Type} (jordans : List (List σ)) :
    (∑ i ∈ Finset.range jordans.length, (jordans.getD i []).length) =
      totalSegs jordans := by
  induction jordans with
  | nil => simp [totalSegs]
  | cons a t ih =>
    rw [totalSegs, List.map_cons, List.sum_cons, List.length_cons,
      Finset.sum_range_succ']
    simp only [List.getD_cons_succ, List.getD_cons_zero]
    rw [show (∑ i ∈ Finset.range t.length, (t.getD i []).length) = totalSegs t from ih,
      show totalSegs t = (List.map List.length t).sum from rfl]
    exact Nat.add_comm _ _

theorem nodup_valid_length_le {σ : Type} (jordans : List (List σ))
    (m : List (ℕ × ℕ)) (hnd : m.Nodup) (hv : ∀ p ∈ m, ValidPair jordans p) :
    m.length ≤ totalSegs jordans := by
  classical
  have hsub : m.toFinset ⊆ (Finset.range jordans.length).biUnion
      (fun i => {i} ×ˢ Finset.range ((jordans.getD i []).length)) := by
    intro p hp
    rw [List.mem_toFinset] at hp
    have hvp := hv p hp
    rw [Finset.mem_biUnion]
    refine ⟨p.1, Finset.mem_range.2 hvp.1, ?_⟩
    rw [Finset.mem_product, Finset.mem_singleton, Finset.mem_range]
    exact ⟨rfl, hvp.2⟩
  have hcard : ((Finset.range jordans.length).biUnion
      (fun i => {i} ×ˢ Finset.range ((jordans.getD i []).length))).card =
      totalSegs jordans := by
    rw [Finset.card_biUnion]
    · rw [Finset.sum_congr rfl (fun i _ => by
        rw [Finset.card_product, Finset.card_singleton, one_mul, Finset.card_range])]
      exact sum_range_getD_length jordans
    · intro a _ b _ hab
      rw [Finset.disjoint_left]
      intro p hpa hpb
      rw [Finset.mem_product, Finset.mem_singleton] at hpa hpb
      exact hab (hpa.1.symm.trans hpb.1)
  calc m.length = m.toFinset.card := (List.toFinset_card_of_nodup hnd).symm
    _ ≤ _ := Finset.card_le_card hsub
    _ = totalSegs jordans := hcard

theorem pursueLoop_total {σ π : Type} [Inhabited σ] (jordans : List (List σ))
    (lastPt startPt : σ → π) (jmem : List σ → π → Bool) (peq : π → π → Bool)
    (hne : ∀ j ∈ jordans, j ≠ []) :
    ∀ (fuel : ℕ) (matrix : List (ℕ × ℕ)) (ij is0 : ℕ),
      matrix.Nodup → (∀ p ∈ matrix, ValidPair jordans p) → ij < jordans.length →
      totalSegs jordans + 1 ≤ fuel + matrix.length →
      ∃ m2, pursueLoop jordans lastPt startPt jmem peq fuel matrix ij is0 = some m2 ∧
        m2.Nodup ∧ (∀ p ∈ m2, ValidPair jordans p) ∧
        m2.length ≤ totalSegs jordans := by
  intro fuel
  induction fuel with
  | zero =>
    intro matrix ij is0 hnd hv _ hfuel
    exfalso
    have := nodup_valid_length_le jordans matrix hnd hv
    omega
  | succ n ih =>
    intro matrix ij is0 hnd hv hij hfuel
    have hlen : 0 < (jordans.getD ij []).length := by
      have hmem : jordans.getD ij [] ∈ jordans := by
        rw [List.getD_eq_getElem jordans [] hij]
        exact List.getElem_mem hij
      exact List.length_pos.2 (hne _ hmem)
    have his1 : is0 % (jordans.getD ij []).length < (jordans.getD ij []).length :=
      Nat.mod_lt _ hlen
    simp only [pursueLoop]
    by_cases hmem2 : (ij, is0 % (jordans.getD ij []).length) ∈ matrix
    · rw [if_pos hmem2]
      exact ⟨matrix, rfl, hnd, hv, nodup_valid_length_le jordans matrix hnd hv⟩
    · rw [if_neg hmem2]
      have hnd2 : (matrix ++ [(ij, is0 % (jordans.getD ij []).length)]).Nodup := by
        refine List.Nodup.append hnd (List.nodup_singleton _) ?_
        intro a ha hb
        rw [List.mem_singleton] at hb
        subst hb
        exact hmem2 ha
      have hv2 : ∀ p ∈ matrix ++ [(ij, is0 % (jordans.getD ij []).length)],
          ValidPair jordans p := by
        intro p hp
        rcases List.mem_append.1 hp with hp1 | hp1
        · exact hv p hp1
        · rw [List.mem_singleton] at hp1
          subst hp1
          exact ⟨hij, his1⟩
      have hfuel2 : totalSegs jordans + 1 ≤
          n + (matrix ++ [(ij, is0 % (jordans.getD ij []).length)]).length := by
        rw [List.length_append, List.length_singleton]
        omega
      cases hfind : (List.range jordans.length).find?
          (fun i => decide (i ≠ ij) &&
            jmem (jordans.getD i [])
              (lastPt ((jordans.getD ij []).getD
                (is0 % (jordans.getD ij []).length) default))) with
      | none => exact ih _ _ _ hnd2 hv2 hij hfuel2
      | some i2 =>
        have hi2 : i2 < jordans.length :=
          List.mem_range.1 (List.mem_of_find?_eq_some hfind)
        exact ih _ _ _ hnd2 hv2 hi2 hfuel2

end FollowPath

/-- C10: `FollowPath.pursue_path` terminates for every input (valid
starting jordan index, non-empty segment lists), independently of the
no-triple-intersection precondition and for every behavior of the
membership and point equality predicates: the loop halts within
`totalSegs + 1` iterations (the fuel is never exhausted), the returned
matrix has no repeated (jordan, segment) pair, and its length is at most
the total number of segments across all input jordan curves. -/
theorem C10_pursue_path_terminates {σ π : Type} [Inhabited σ] (jordans : List (List σ))
    (lastPt startPt : σ → π) (jmem : List σ → π → Bool) (peq : π → π → Bool)
    (index_jordan index_segment : ℕ)
    (hij : index_jordan < jordans.length) (hne : ∀ j ∈ jordans, j ≠ []) :
    ∃ matrix, FollowPath.pursue_path jordans lastPt startPt jmem peq
        index_jordan index_segment = some matrix ∧ matrix.Nodup ∧
        matrix.length ≤ FollowPath.totalSegs jordans := by
  obtain ⟨m2, h1, h2, _, h4⟩ := FollowPath.pursueLoop_total jordans lastPt startPt
    jmem peq hne (FollowPath.totalSegs jordans + 1) [] index_jordan index_segment
    List.Pairwise.nil (by simp) hij (by simp)
  exact ⟨m2, h1, h2, h4⟩

/-- Witness for C10 on a concrete two jordan instance. -/
theorem C10_pursue_path_terminates_witness :
    ∃ matrix, FollowPath.pursue_path [[0, 1], [2]] (id : ℕ → ℕ) id
        (fun l p => decide (p ∈ l)) (fun a b => decide (a = b)) 0 0 = some matrix ∧
        matrix.Nodup ∧ matrix.length ≤ FollowPath.totalSegs [[0, 1], [2]] :=
  C10_pursue_path_terminates [[0, 1], [2]] id id
    (fun l p => decide (p ∈ l)) (fun a b => decide (a = b)) 0 0
    (by decide) (by decide)

/-- Python `round` (banker's rounding, ties to even). -/
noncomputable def pyRound (x : ℝ) : ℤ :=
  if x - ⌊x⌋ < 1 / 2 then ⌊x⌋
  else if 1 / 2 < x - ⌊x⌋ then ⌊x⌋ + 1
  else if Even ⌊x⌋ then ⌊x⌋ else ⌊x⌋ + 1

/-- Modelled from the spec: the axis aligned bounding `Box` of
`polygon.py`, as its two corner points. -/
structure BoxR where
  lo : Pt ℝ
  hi : Pt ℝ

/-- Modelled from the spec: the point inside test of `Box`. -/
noncomputable def inBoxB (b : BoxR) (p : Pt ℝ) : Bool :=
  decide (b.lo.1 ≤ p.1 ∧ p.1 ≤ b.hi.1 ∧ b.lo.2 ≤ p.2 ∧ p.2 ≤ b.hi.2)

/-- `PlanarCurve.box`: the componentwise extrema of the control points. -/
noncomputable def segBox (s : Seg) : BoxR :=
  match s with
  | [] => ⟨0, 0⟩
  | p :: rest =>
    ⟨(rest.foldl (fun m q => min m q.1) p.1, rest.foldl (fun m q => min m q.2) p.2),
      (rest.foldl (fun m q => max m q.1) p.1, rest.foldl (fun m q => max m q.2) p.2)⟩

/-- Modelled from the spec: `Box.__or__` (union of boxes). -/
noncomputable def boxUnion (a b : BoxR) : BoxR :=
  ⟨(min a.lo.1 b.lo.1, min a.lo.2 b.lo.2), (max a.hi.1 b.hi.1, max a.hi.2 b.hi.2)⟩

/-- `JordanCurve.box`: the union of the segment boxes (the infinite
sentinel start box of the source is absorbed by the first union; the
empty segment list is unreachable). -/
noncomputable def jordanBox (segs : Jordan) : BoxR :=
  match segs with
  | [] => ⟨0, 0⟩
  | s :: rest => rest.foldl (fun b t => boxUnion b (segBox t)) (segBox s)

/-- `nurbs.heavy.NodeSample.closed_linspace n` (external collaborator):
`n` equally spaced nodes from 0 to 1 inclusive. -/
noncomputable def closedLinspace (n : ℕ) : List ℝ :=
  (List.range n).map (fun i : ℕ => (i : ℝ) / ((n : ℝ) - 1))

/-- The Newton loop of `Projection.newton_iteration` (10 passes, each one
updating every sample, clamping into [0,1] and deduplicating; stops early
when one sample remains).  A vanishing Newton denominator is modelled by
total real division (the source would raise `ZeroDivisionError`). -/
noncomputable def projNewton (point : Pt ℝ) (cpts : Seg) : ℕ → List ℝ → List ℝ
  | 0, us => us
  | k + 1, us =>
    let dc := derivCtrl cpts
    let ddc := derivCtrl dc
    let us2 := (us.map (fun uk =>
      let curval := evalPt cpts uk - point
      let deriva := evalPt dc uk
      let fuk := pdot deriva curval
      let dfuk := pdot (evalPt ddc uk) curval + pdot deriva deriva
      min 1 (max (uk - fuk / dfuk) 0))).dedup
    if us2.length = 1 then us2 else projNewton point cpts k us2

/-- `Projection.point_on_curve`: Newton from `degree + 2` samples, then
every parameter whose squared distance is within `1e-6` of the minimum. -/
noncomputable def point_on_curve (point : Pt ℝ) (cpts : Seg) : List ℝ :=
  let us := projNewton point cpts 10 (closedLinspace (2 + (cpts.length - 1)))
  let d2 := us.map (fun u =>
    let v := evalPt cpts u - point
    pdot v v)
  let m := d2.foldr min (d2.getD 0 0)
  (us.zip d2).filterMap (fun ud => if |ud.2 - m| < tol6R then some ud.1 else none)

/-- `PlanarCurve.__contains__`: box test, then projection, then a `1e-6`
distance test. -/
noncomputable def segContainsB (s : Seg) (p : Pt ℝ) : Bool :=
  if inBoxB (segBox s) p then
    (point_on_curve p s).any (fun u => decide (ptAbs (evalPt s u - p) < tol6R))
  else false

/-- `JordanCurve.__contains__`: box test then any segment. -/
noncomputable def jordanContainsB (segs : Jordan) (p : Pt ℝ) : Bool :=
  if inBoxB (jordanBox segs) p then segs.any (fun s => segContainsB s p)
  else false

/-- `IntegratePlanar.winding_number`: closed form for degree 1 segments,
Chebyshev quadrature of `(x y' - y x')/(x^2+y^2)` over `τ` otherwise. -/
noncomputable def segWinding (quad : Quad) (s : Seg) (nnodes : Option ℕ) : ℝ :=
  let n := nnodes.getD (5 + (s.length - 1))
  if s.length - 1 = 1 then
    IntegratePlanar.winding_number_linear (s.getD 0 0) (s.getD 1 0)
  else
    ((quad.cheb n).map (fun uw =>
      uw.2 * (((evalPt s uw.1).1 * (evalPt (derivCtrl s) uw.1).2 -
        (evalPt s uw.1).2 * (evalPt (derivCtrl s) uw.1).1) /
          ((evalPt s uw.1).1 ^ 2 + (evalPt s uw.1).2 ^ 2)))).sum / mtau

/-- `IntegrateJordan.winding_number`: `0.5` when the origin lies on the
boundary, otherwise the rounded sum of the per segment contributions. -/
noncomputable def jordanWinding (quad : Quad) (segs : Jordan) : ℝ :=
  if segs.any (fun s => segContainsB s (0, 0)) then 1 / 2
  else ((pyRound ((segs.map (fun s => segWinding quad s none)).sum) : ℤ) : ℝ)

/-- `JordanCurve.copy` as a value: fresh curves through the setter. -/
noncomputable def copyJv (ddO : DdOR) (j : Jordan) : Jordan := setSegments ddO j

/-- Translation of every control point (the `move` mutation on the
spec-modelled shared vertex objects). -/
noncomputable def moveJv (j : Jordan) (d : Pt ℝ) : Jordan :=
  j.map (fun s => s.map (fun p => p + d))

/-- `~jordan` as a value: `copy().invert()` — each segment inverted, in
reversed order, reassigned through the setter. -/
noncomputable def invertJv (ddO : DdOR) (j : Jordan) : Jordan :=
  setSegments ddO (((setSegments ddO j).map List.reverse).reverse)

/-- `FollowPath.winding_number`: winding number of `jordan` about
`point`, by translating a copy so the point is the origin. -/
noncomputable def fpWinding (quad : Quad) (ddO : DdOR) (j : Jordan) (p : Pt ℝ) : ℝ :=
  jordanWinding quad (moveJv (copyJv ddO j) (-p))

/-- `JordanCurve.points(subnpts)`: per segment evaluations at
`linspace(0, 1, subnpts, endpoint=False)`, with the first point appended
at the end. -/
noncomputable def pointsList (segs : Jordan) (subnpts : ℕ) : List (Pt ℝ) :=
  let all := segs.bind (fun s =>
    (List.range subnpts).map (fun i : ℕ => evalPt s ((i : ℝ) / (subnpts : ℝ))))
  all ++ [all.getD 0 0]

/-- The pure value of jordan inversion on already clean segments. -/
noncomputable def revJ (j : Jordan) : Jordan := (j.map List.reverse).reverse

/-- The Python exceptions raised by the shape layer. -/
inductive PyErr where
  | notImplemented : PyErr
  | valueError : PyErr
  | assertionError : PyErr
deriving DecidableEq

/-- The `positive` attribute of a `ConnectedShape`. -/
inductive PosShape where
  | whole : PosShape
  | simple : Jordan → PosShape

/-- A subshape of a `DisjointShape`. -/
inductive CompShape where
  | simple : Jordan → CompShape
  | connected : PosShape → List Jordan → CompShape

/-- The shape object hierarchy of `shape.py`: a `simple` holds its stored
jordan curve, a `connected` holds its positive part and the stored curves
of its `SimpleShape` holes, a `disjoint` holds its subshapes. -/
inductive Shape where
  | empty : Shape
  | whole : Shape
  | simple : Jordan → Shape
  | connected : PosShape → List Jordan → Shape
  | disjoint : List CompShape → Shape

def Shape.isEmptySh : Shape → Bool
  | .empty => true
  | _ => false

def Shape.isSimpleSh : Shape → Bool
  | .simple _ => true
  | _ => false

def Shape.isConnectedSh : Shape → Bool
  | .connected _ _ => true
  | _ => false

def Shape.toComp : Shape → Option CompShape
  | .simple j => some (.simple j)
  | .connected p h => some (.connected p h)
  | _ => none

/-- The positive part of `ConnectedShape.jordans`. -/
def posJordans : PosShape → List Jordan
  | .whole => []
  | .simple j => [j]

/-- The `jordans` property: the stored boundary list of a finite shape
(`~hole.jordancurve` for each hole of a connected shape).  The empty and
whole singletons have no such attribute in the source and are never
queried here either. -/
noncomputable def Shape.jordansOf (ddO : DdOR) : Shape → List Jordan
  | .empty => []
  | .whole => []
  | .simple j => [j]
  | .connected pos holes => posJordans pos ++ holes.map (invertJv ddO)
  | .disjoint subs => subs.bind (fun c =>
      match c with
      | .simple j => [j]
      | .connected pos holes => posJordans pos ++ holes.map (invertJv ddO))

/-- `SimpleShape.contains_point` for a shape storing `jc` (the shape box
is the box of its only jordan): box test, boundary test, then winding
test against the orientation sign `float(jordan) > 0`. -/
noncomputable def simpleContainsPoint (quad : Quad) (ddO : DdOR) (jc : Jordan)
    (p : Pt ℝ) : Bool :=
  if inBoxB (jordanBox jc) p then
    if jordanContainsB jc p then true
    else if 0 < lenghtVal quad jc then decide (fpWinding quad ddO jc p = 1)
    else decide (fpWinding quad ddO jc p = 0)
  else false

/-- `SimpleShape.contains_jordan_curve`: every `points(1)` sample of the
other curve lies in the shape. -/
noncomputable def simpleContainsJordan (quad : Quad) (ddO : DdOR)
    (jc other : Jordan) : Bool :=
  (pointsList other 1).all (fun p => simpleContainsPoint quad ddO jc p)

/-- `SimpleShape.contains_shape` (the connected case recurses into the
positive part, the disjoint case into every subshape). -/
noncomputable def simpleContainsShape (quad : Quad) (ddO : DdOR) (jc : Jordan) :
    Shape → Bool
  | .empty => true
  | .whole => false
  | .simple j2 => simpleContainsJordan quad ddO jc j2
  | .connected pos _ =>
    (match pos with
      | .whole => false
      | .simple j2 => simpleContainsJordan quad ddO jc j2)
  | .disjoint subs => subs.all (fun c =>
      match c with
      | .simple j2 => simpleContainsJordan quad ddO jc j2
      | .connected pos _ =>
        (match pos with
          | .whole => false
          | .simple j2 => simpleContainsJordan quad ddO jc j2))

/-- The `SimpleShape` constructor: the `jordancurve` setter rejects a
negative `lenght` and stores a copy. -/
noncomputable def SimpleShapeNew (quad : Quad) (ddO : DdOR) (j : Jordan) :
    Except PyErr Shape :=
  if lenghtVal quad j < 0 then .error .valueError
  else .ok (.simple (copyJv ddO j))

/-- The hole loop of `ConnectedShape.__new__`: each hole must be a
`SimpleShape` (assertion) and must be contained in the positive part
(`ValueError` otherwise); the stored curves of the accepted holes are
collected in order. -/
noncomputable def connectedHoles (quad : Quad) (ddO : DdOR) (pos : PosShape) :
    List Shape → Except PyErr (List Jordan)
  | [] => .ok []
  | h :: rest =>
    match h with
    | .simple jh =>
      if (match pos with
          | .whole => true
          | .simple jp => simpleContainsShape quad ddO jp (.simple jh)) then
        (connectedHoles quad ddO pos rest).map (fun js => jh :: js)
      else .error .valueError
    | _ => .error .assertionError

/-- `FiniteShape.copy` of a `SimpleShape` storing `jp`:
`ShapeFromJordans([jp.copy()])`, unfolded on its singleton input (the
source recursion through the constructors bottoms out after one round,
so the copy paths are stratified here instead of mutually recursive;
freshly built simple holes are never the empty singleton, so the empty
filter of `ConnectedShape.__new__` is the identity in the negative
branch). -/
noncomputable def simpleCopyCore (quad : Quad) (ddO : DdOR) (jp : Jordan) :
    Except PyErr Shape :=
  let jc := copyJv ddO jp
  if 0 < lenghtVal quad jc then SimpleShapeNew quad ddO jc
  else if lenghtVal quad jc < 0 then
    (SimpleShapeNew quad ddO (invertJv ddO jc)).bind (fun s =>
      (connectedHoles quad ddO .whole [s]).map (fun js => Shape.connected .whole js))
  else .error .notImplemented

/-- `ConnectedShape.__new__`: the positive part must be whole or simple
(assertion), empties are dropped from the holes, an empty hole list
returns a copy of the positive part, otherwise every hole is checked and
the shape is assembled. -/
noncomputable def ConnectedShapeNew (quad : Quad) (ddO : DdOR) (positive : Shape)
    (holes : List Shape) : Except PyErr Shape :=
  match positive with
  | .whole =>
    let holes2 := holes.filter (fun h => !h.isEmptySh)
    if holes2.length = 0 then .ok .whole
    else (connectedHoles quad ddO .whole holes2).map (fun js =>
      .connected .whole js)
  | .simple jp =>
    let holes2 := holes.filter (fun h => !h.isEmptySh)
    if holes2.length = 0 then simpleCopyCore quad ddO jp
    else (connectedHoles quad ddO (.simple jp) holes2).map (fun js =>
      .connected (.simple jp) js)
  | _ => .error .assertionError

/-- `DisjointShape.__new__` as reached with freshly built `SimpleShape`
lists (inside `ShapeFromJordans` and the simple union): a connected
singleton cannot arise at those call sites, so its copy arm is cut to an
assertion here; the general constructor below routes it through
`connectedCopyCore`. -/
noncomputable def disjointOfNewSimples (quad : Quad) (ddO : DdOR)
    (subs : List Shape) : Except PyErr Shape :=
  let subs2 := subs.filter (fun h => !h.isEmptySh)
  if subs2.length = 0 then .ok .empty
  else if subs2.all (fun c => c.isSimpleSh || c.isConnectedSh) then
    if subs2.length = 1 then
      (match subs2.getD 0 .empty with
        | .simple j => simpleCopyCore quad ddO j
        | _ => .error .assertionError)
    else .ok (.disjoint (subs2.filterMap Shape.toComp))
  else .error .assertionError

/-- `FiniteShape.copy` of a `ConnectedShape` (positive part `pos`,
stored hole curves `hs`): `ShapeFromJordans` on copies of its jordans,
unfolded (same stratification as `simpleCopyCore`). -/
noncomputable def connectedCopyCore (quad : Quad) (ddO : DdOR) (pos : PosShape)
    (hs : List Jordan) : Except PyErr Shape :=
  let js := (posJordans pos ++ hs.map (invertJv ddO)).map (copyJv ddO)
  if js.length = 0 then .ok .empty
  else if js.length = 1 ∧ 0 < lenghtVal quad (js.getD 0 []) then
    SimpleShapeNew quad ddO (js.getD 0 [])
  else if js.all (fun j => decide (lenghtVal quad j < 0)) then
    (js.mapM (fun j => SimpleShapeNew quad ddO (invertJv ddO j))).bind (fun simples =>
      ConnectedShapeNew quad ddO .whole simples)
  else if js.all (fun j => decide (0 < lenghtVal quad j)) then
    (js.mapM (fun j => SimpleShapeNew quad ddO j)).bind (fun simples =>
      disjointOfNewSimples quad ddO simples)
  else .error .notImplemented

/-- `DisjointShape.__new__` (general form): empties dropped, the empty
list is `EmptyShape`, every subshape must be simple or connected
(assertion), a singleton is copied, otherwise the shape is assembled. -/
noncomputable def DisjointShapeNew (quad : Quad) (ddO : DdOR)
    (subs : List Shape) : Except PyErr Shape :=
  let subs2 := subs.filter (fun h => !h.isEmptySh)
  if subs2.length = 0 then .ok .empty
  else if subs2.all (fun c => c.isSimpleSh || c.isConnectedSh) then
    if subs2.length = 1 then
      (match subs2.getD 0 .empty with
        | .simple j => simpleCopyCore quad ddO j
        | .connected pos hs => connectedCopyCore quad ddO pos hs
        | _ => .error .assertionError)
    else .ok (.disjoint (subs2.filterMap Shape.toComp))
  else .error .assertionError

/-- `ShapeFromJordans` (`shape.py` lines 949 to 971). -/
noncomputable def ShapeFromJordans (quad : Quad) (ddO : DdOR)
    (jordans : List Jordan) : Except PyErr Shape :=
  if jordans.length = 0 then .ok .empty
  else if jordans.length = 1 ∧ 0 < lenghtVal quad (jordans.getD 0 []) then
    SimpleShapeNew quad ddO (jordans.getD 0 [])
  else if jordans.all (fun j => decide (lenghtVal quad j < 0)) then
    (jordans.mapM (fun j => SimpleShapeNew quad ddO (invertJv ddO j))).bind
      (fun simples => ConnectedShapeNew quad ddO .whole simples)
  else if jordans.all (fun j => decide (0 < lenghtVal quad j)) then
    (jordans.mapM (fun j => SimpleShapeNew quad ddO j)).bind
      (fun simples => DisjointShapeNew quad ddO simples)
  else .error .notImplemented

/-- `copy()`: identity on the two singletons, `ShapeFromJordans` on
copies of the stored jordans for the finite shapes. -/
noncomputable def copyShape (quad : Quad) (ddO : DdOR) : Shape → Except PyErr Shape
  | .empty => .ok .empty
  | .whole => .ok .whole
  | .simple j =>
    ShapeFromJordans quad ddO (((Shape.simple j).jordansOf ddO).map (copyJv ddO))
  | .connected pos hs =>
    ShapeFromJordans quad ddO (((Shape.connected pos hs).jordansOf ddO).map (copyJv ddO))
  | .disjoint subs =>
    ShapeFromJordans quad ddO (((Shape.disjoint subs).jordansOf ddO).map (copyJv ddO))

/-- `FiniteShape.__or__` for a finite `self`: whole and empty short
circuit, otherwise `union_path` (the `unionP` oracle) on the two
boundary lists, fed to `ShapeFromJordans`. -/
noncomputable def finiteOrBody (quad : Quad) (ddO : DdOR)
    (unionP : List Jordan → List Jordan → List Jordan) (self other : Shape) :
    Except PyErr Shape :=
  match other with
  | .whole => .ok .whole
  | .empty => copyShape quad ddO self
  | _ => ShapeFromJordans quad ddO (unionP (self.jordansOf ddO) (other.jordansOf ddO))

/-- `FiniteShape.__and__` for a finite `self`. -/
noncomputable def finiteAndBody (quad : Quad) (ddO : DdOR)
    (interP : List Jordan → List Jordan → List Jordan) (self other : Shape) :
    Except PyErr Shape :=
  match other with
  | .whole => copyShape quad ddO self
  | .empty => .ok .empty
  | _ => ShapeFromJordans quad ddO (interP (self.jordansOf ddO) (other.jordansOf ddO))

/-- `|` on shapes: the dispatch of the five `__or__` methods
(`SimpleShape.__or__` falls back to `other | self` when the right
operand is not simple). -/
noncomputable def shapeOr (quad : Quad) (ddO : DdOR)
    (unionP : List Jordan → List Jordan → List Jordan) :
    Shape → Shape → Except PyErr Shape
  | .empty, other => copyShape quad ddO other
  | .whole, _ => .ok .whole
  | .simple j, .simple j2 =>
    if simpleContainsShape quad ddO j2 (.simple j) then copyShape quad ddO (.simple j2)
    else if simpleContainsShape quad ddO j (.simple j2) then copyShape quad ddO (.simple j)
    else
      ((unionP [j] [j2]).mapM (fun nj => SimpleShapeNew quad ddO nj)).bind
        (fun simples => DisjointShapeNew quad ddO simples)
  | .simple j, .empty => copyShape quad ddO (.simple j)
  | .simple _, .whole => .ok .whole
  | .simple j, .connected pos hs =>
    finiteOrBody quad ddO unionP (.connected pos hs) (.simple j)
  | .simple j, .disjoint subs =>
    finiteOrBody quad ddO unionP (.disjoint subs) (.simple j)
  | .connected pos hs, other => finiteOrBody quad ddO unionP (.connected pos hs) other
  | .disjoint subs, other => finiteOrBody quad ddO unionP (.disjoint subs) other

/-- `&` on shapes: the dispatch of the five `__and__` methods (the
simple and simple case first checks mutual containment, then whether the
two boundaries intersect at all — the `hasI` oracle for
`JordanCurve.intersection(other, end_points=True)` being nonempty). -/
noncomputable def shapeAnd (quad : Quad) (ddO : DdOR)
    (interP : List Jordan → List Jordan → List Jordan)
    (hasI : Jordan → Jordan → Bool) :
    Shape → Shape → Except PyErr Shape
  | .empty, _ => .ok .empty
  | .whole, other => copyShape quad ddO other
  | .simple j, .simple j2 =>
    if simpleContainsShape quad ddO j2 (.simple j) then copyShape quad ddO (.simple j)
    else if simpleContainsShape quad ddO j (.simple j2) then copyShape quad ddO (.simple j2)
    else if hasI j j2 then
      ((interP [j] [j2]).mapM (fun nj => SimpleShapeNew quad ddO nj)).bind
        (fun simples =>
          if simples.length = 1 then .ok (simples.getD 0 .empty)
          else .error .assertionError)
    else .ok .empty
  | .simple _, .empty => .ok .empty
  | .simple j, .whole => copyShape quad ddO (.simple j)
  | .simple j, .connected pos hs =>
    finiteAndBody quad ddO interP (.connected pos hs) (.simple j)
  | .simple j, .disjoint subs =>
    finiteAndBody quad ddO interP (.disjoint subs) (.simple j)
  | .connected pos hs, other => finiteAndBody quad ddO interP (.connected pos hs) other
  | .disjoint subs, other => finiteAndBody quad ddO interP (.disjoint subs) other

theorem sum_map_neg {α : Type} (l : List α) (g : α → ℝ) :
    (l.map (fun x => -(g x))).sum = -((l.map g).sum) := by
  induction l with
  | nil => simp
  | cons a t ih => simp [ih]; ring

/-- Sums against a symmetric quadrature table are invariant under the
node reflection `u ↦ 1 - u`. -/
theorem symQuad_sum (quad : Quad) (hsym : SymQuad quad) (n : ℕ) (F : ℝ → ℝ) :
    ((quad.nc n).map (fun uw => uw.2 * F (1 - uw.1))).sum =
      ((quad.nc n).map (fun uw => uw.2 * F uw.1)).sum := by
  have hperm := (hsym n).map (fun uw => uw.2 * F uw.1)
  have heq : ((quad.nc n).map (fun uw => (1 - uw.1, uw.2))).map
      (fun uw => uw.2 * F uw.1) = (quad.nc n).map (fun uw => uw.2 * F (1 - uw.1)) := by
    rw [List.map_map]
    exact List.map_congr_left (fun uw _ => rfl)
  rw [← heq]
  exact (hperm.sum_eq).symm

theorem ptAbs_sub_comm (p q : Pt ℝ) : ptAbs (p - q) = ptAbs (q - p) := by
  unfold ptAbs
  have h1 : (p - q).1 ^ 2 = (q - p).1 ^ 2 := by
    simp only [Prod.fst_sub]
    ring
  have h2 : (p - q).2 ^ 2 = (q - p).2 ^ 2 := by
    simp only [Prod.snd_sub]
    ring
  rw [h1, h2]

/-- The length quadrature of a degree one segment: total weight times the
chord length. -/
theorem lenght_pair (quad : Quad) (p q : Pt ℝ) :
    IntegratePlanar.lenght quad [p, q] none =
      ((quad.nc 4).map (fun uw => uw.2)).sum * ptAbs (q - p) := by
  unfold IntegratePlanar.lenght
  simp only [derivCtrl_pair, evalPt_single, List.length_cons, List.length_nil,
    Option.getD_none]
  norm_num
  induction (quad.nc (3 + 1)) with
  | nil => simp
  | cons a t ih => simp [ih]; ring

theorem lenght_seg_reverse (quad : Quad) (p q : Pt ℝ) :
    IntegratePlanar.lenght quad [q, p] none = IntegratePlanar.lenght quad [p, q] none := by
  rw [lenght_pair, lenght_pair, ptAbs_sub_comm]

/-- Reversing a degree one segment negates its area quadrature, for any
symmetric quadrature table. -/
theorem area_pair_reverse (quad : Quad) (hsym : SymQuad quad) (p q : Pt ℝ) :
    IntegratePlanar.area quad [q, p] none = -(IntegratePlanar.area quad [p, q] none) := by
  unfold IntegratePlanar.area IntegratePlanar.vertical
  simp only [derivCtrl_pair, evalPt_single, evalPt_pair, List.length_cons,
    List.length_nil, Option.getD_none, pow_one, pow_zero, mul_one, Prod.fst_add,
    Prod.snd_add, Prod.smul_fst, Prod.smul_snd, Prod.fst_sub, Prod.snd_sub,
    smul_eq_mul]
  norm_num
  have hrev : ((quad.nc 5).map (fun uw =>
      uw.2 * ((uw.1 * (p.1 - q.1) + q.1) * (p.2 - q.2)))).sum =
      ((quad.nc 5).map (fun uw =>
        uw.2 * (-(((1 - uw.1) * (q.1 - p.1) + p.1) * (q.2 - p.2))))).sum := by
    apply congrArg
    apply List.map_congr_left
    intro uw _
    ring_nf
  have hneg : ((quad.nc 5).map (fun uw =>
      uw.2 * (-(((1 - uw.1) * (q.1 - p.1) + p.1) * (q.2 - p.2))))).sum =
      -(((quad.nc 5).map (fun uw =>
        uw.2 * (((1 - uw.1) * (q.1 - p.1) + p.1) * (q.2 - p.2)))).sum) := by
    rw [show (fun uw : ℝ × ℝ =>
        uw.2 * (-(((1 - uw.1) * (q.1 - p.1) + p.1) * (q.2 - p.2)))) =
        (fun uw : ℝ × ℝ =>
          -(uw.2 * (((1 - uw.1) * (q.1 - p.1) + p.1) * (q.2 - p.2)))) from
      funext (fun uw => by ring)]
    exact sum_map_neg _ _
  have hsymm := symQuad_sum quad hsym 5
    (fun u => (u * (q.1 - p.1) + p.1) * (q.2 - p.2))
  rw [hrev, hneg, hsymm]

theorem mem_revJ {j : Jordan} {s : Seg} (hs : s ∈ revJ j) :
    ∃ t ∈ j, s = t.reverse := by
  unfold revJ at hs
  rw [List.mem_reverse, List.mem_map] at hs
  obtain ⟨t, ht, rfl⟩ := hs
  exact ⟨t, ht, rfl⟩

theorem revJ_polyg {j : Jordan} (hp : ∀ s ∈ j, s.length = 2) :
    ∀ s ∈ revJ j, s.length = 2 := by
  intro s hs
  obtain ⟨t, ht, rfl⟩ := mem_revJ hs
  rw [List.length_reverse]
  exact hp t ht

theorem revJ_revJ (j : Jordan) : revJ (revJ j) = j := by
  unfold revJ
  rw [List.map_reverse, List.reverse_reverse, List.map_map]
  calc j.map (List.reverse ∘ List.reverse)
      = j.map id := List.map_congr_left (fun s _ => List.reverse_reverse s)
    _ = j := List.map_id j

theorem copyJv_polyg (ddO : DdOR) {j : Jordan} (hp : ∀ s ∈ j, s.length = 2) :
    copyJv ddO j = j := by
  unfold copyJv
  exact setSegments_short ddO j (fun s hs => le_of_eq (hp s hs))

theorem invertJv_polyg (ddO : DdOR) {j : Jordan} (hp : ∀ s ∈ j, s.length = 2) :
    invertJv ddO j = revJ j := by
  unfold invertJv
  rw [setSegments_short ddO j (fun s hs => le_of_eq (hp s hs))]
  exact setSegments_short ddO _ (fun s hs => le_of_eq (revJ_polyg hp s hs))

/-- Reversing a polygonal jordan curve keeps the arc length quadrature. -/
theorem polyg_lenght_reverse (quad : Quad) {j : Jordan}
    (hp : ∀ s ∈ j, s.length = 2) :
    IntegrateJordan.lenght quad (revJ j) = IntegrateJordan.lenght quad j := by
  unfold IntegrateJordan.lenght revJ
  rw [List.map_reverse, List.sum_reverse, List.map_map]
  apply congrArg
  apply List.map_congr_left
  intro s hs
  obtain ⟨p, q, rfl⟩ := List.length_eq_two.1 (hp s hs)
  exact lenght_seg_reverse quad p q

/-- Reversing a polygonal jordan curve negates the area quadrature, for
any symmetric quadrature table. -/
theorem polyg_area_reverse (quad : Quad) (hsym : SymQuad quad) {j : Jordan}
    (hp : ∀ s ∈ j, s.length = 2) :
    IntegrateJordan.area quad (revJ j) = -(IntegrateJordan.area quad j) := by
  unfold IntegrateJordan.area revJ
  rw [List.map_reverse, List.sum_reverse, List.map_map]
  rw [show (IntegratePlanar.area quad · none) ∘ List.reverse =
      fun s : Seg => IntegratePlanar.area quad s.reverse none from rfl]
  have hcong : j.map (fun s : Seg => IntegratePlanar.area quad s.reverse none) =
      j.map (fun s : Seg => -(IntegratePlanar.area quad s none)) := by
    apply List.map_congr_left
    intro s hs
    obtain ⟨p, q, rfl⟩ := List.length_eq_two.1 (hp s hs)
    exact area_pair_reverse quad hsym p q
  rw [hcong, sum_map_neg]

/-- `mapM` in the `Except` monad on a list where every call succeeds. -/
theorem mapM_ok {α β γ : Type} (l : List α) (f : α → Except γ β) (g : α → β)
    (h : ∀ x ∈ l, f x = .ok (g x)) : l.mapM f = .ok (l.map g) := by
  induction l with
  | nil => rfl
  | cons a t ih =>
    rw [List.mapM_cons, h a (List.mem_cons_self a t),
      ih (fun x hx => h x (List.mem_cons_of_mem a hx))]
    rfl

/-- The hole loop of `ConnectedShape.__new__` with a whole positive part
accepts every simple hole. -/
theorem connectedHoles_whole_simples (quad : Quad) (ddO : DdOR) (js : List Jordan) :
    connectedHoles quad ddO .whole (js.map Shape.simple) = .ok js := by
  induction js with
  | nil => rfl
  | cons a t ih =>
    rw [List.map_cons]
    simp [connectedHoles, ih, Except.map]

theorem except_bind_ok {γ β δ : Type} (a : β) (f : β → Except γ δ) :
    (Except.ok a : Except γ β).bind f = f a := rfl

theorem filterMap_toComp_simple (js : List Jordan) :
    (js.map Shape.simple).filterMap Shape.toComp = js.map CompShape.simple := by
  induction js with
  | nil => rfl
  | cons a t ih => simp [List.filterMap_cons, Shape.toComp, ih]

theorem filter_simples_id (js : List Jordan) (g : Jordan → Jordan) :
    (js.map (fun j => Shape.simple (g j))).filter (fun h => !h.isEmptySh) =
      js.map (fun j => Shape.simple (g j)) := by
  apply List.filter_eq_self.2
  intro a ha
  obtain ⟨j, _, rfl⟩ := List.mem_map.1 ha
  rfl

/-- C2: `ShapeFromJordans` classifies its boundary list by the sign of
each boundary's signed `lenght`: the empty list yields the empty shape;
all positive (polygonal boundaries with positive area and arc length,
any symmetric quadrature table) yields the simple shape of a singleton
boundary, and a disjoint of simples otherwise; all negative (negative
area, positive arc) yields the inverted boundaries as the holes of the
whole shape; two or more boundaries with mixed signs raise
`NotImplementedError`. -/
theorem C2_shape_from_jordans (quad : Quad) (ddO : DdOR) (js : List Jordan)
    (hsym : SymQuad quad)
    (hp : ∀ j ∈ js, ∀ s ∈ j, s.length = 2) :
    (ShapeFromJordans quad ddO [] = .ok .empty) ∧
    ((∀ j ∈ js, 0 < IntegrateJordan.area quad j ∧ 0 < IntegrateJordan.lenght quad j) →
      ((js.length = 1 → ShapeFromJordans quad ddO js = .ok (.simple (js.getD 0 []))) ∧
        (2 ≤ js.length → ShapeFromJordans quad ddO js =
          .ok (.disjoint (js.map CompShape.simple))))) ∧
    ((∀ j ∈ js, IntegrateJordan.area quad j < 0 ∧ 0 < IntegrateJordan.lenght quad j) →
      js ≠ [] →
      ShapeFromJordans quad ddO js = .ok (.connected .whole (js.map revJ))) ∧
    (2 ≤ js.length →
      (∃ j1 ∈ js, 0 < lenghtVal quad j1) →
      (∃ j2 ∈ js, lenghtVal quad j2 < 0) →
      ShapeFromJordans quad ddO js = .error .notImplemented) := by
  refine ⟨rfl, ?_, ?_, ?_⟩
  · intro hall
    have hback : ∀ j ∈ js, lenghtVal quad j = IntegrateJordan.lenght quad j ∧
        0 < lenghtVal quad j := by
      intro j hj
      have h := hall j hj
      unfold lenghtVal
      rw [if_pos h.1]
      exact ⟨rfl, h.2⟩
    have hmk : ∀ j ∈ js, SimpleShapeNew quad ddO j = .ok (.simple j) := by
      intro j hj
      unfold SimpleShapeNew
      rw [if_neg (not_lt.2 (le_of_lt (hback j hj).2)), copyJv_polyg ddO (hp j hj)]
    constructor
    · intro h1
      obtain ⟨j0, rfl⟩ := List.length_eq_one.1 h1
      have hm : j0 ∈ [j0] := List.mem_cons_self j0 []
      unfold ShapeFromJordans
      rw [if_neg (by simp), if_pos ⟨rfl, (hback j0 hm).2⟩]
      exact hmk j0 hm
    · intro h2
      obtain ⟨a, ha⟩ := @List.exists_mem_of_length_pos _ js (by omega)
      unfold ShapeFromJordans
      rw [if_neg (show ¬js.length = 0 from by omega)]
      rw [if_neg (by rintro ⟨h1, -⟩; omega)]
      rw [if_neg (by
        intro hc
        have := of_decide_eq_true (List.all_eq_true.1 hc a ha)
        linarith [(hback a ha).2])]
      rw [if_pos (List.all_eq_true.2 (fun j hj => decide_eq_true (hback j hj).2))]
      rw [mapM_ok js _ (fun j => Shape.simple j) hmk, except_bind_ok]
      unfold DisjointShapeNew
      rw [show (js.map (fun j => Shape.simple j)) = js.map (fun j => Shape.simple (id j))
        from rfl]
      rw [filter_simples_id js id]
      rw [if_neg (by simp only [List.length_map]; omega)]
      rw [if_pos (List.all_eq_true.2 (by
        intro x hx
        obtain ⟨j, _, rfl⟩ := List.mem_map.1 hx
        rfl))]
      rw [if_neg (by simp only [List.length_map]; omega)]
      rw [show js.map (fun j => Shape.simple (id j)) = js.map Shape.simple from rfl]
      rw [filterMap_toComp_simple]
  · intro hall hne
    have hneg : ∀ j ∈ js, lenghtVal quad j < 0 := by
      intro j hj
      have h := hall j hj
      unfold lenghtVal
      rw [if_neg (not_lt.2 (le_of_lt h.1))]
      linarith [h.2]
    have hinv : ∀ j ∈ js, SimpleShapeNew quad ddO (invertJv ddO j) =
        .ok (.simple (revJ j)) := by
      intro j hj
      rw [invertJv_polyg ddO (hp j hj)]
      unfold SimpleShapeNew
      have harea : 0 < IntegrateJordan.area quad (revJ j) := by
        rw [polyg_area_reverse quad hsym (hp j hj)]
        linarith [(hall j hj).1]
      have hlv : lenghtVal quad (revJ j) = IntegrateJordan.lenght quad (revJ j) := by
        unfold lenghtVal
        rw [if_pos harea]
      rw [if_neg (by
        rw [hlv, polyg_lenght_reverse quad (hp j hj)]
        exact not_lt.2 (le_of_lt (hall j hj).2))]
      rw [copyJv_polyg ddO (revJ_polyg (hp j hj))]
    cases js with
    | nil => exact absurd rfl hne
    | cons a t =>
      have hm : a ∈ a :: t := List.mem_cons_self a t
      unfold ShapeFromJordans
      rw [if_neg (by simp)]
      rw [if_neg (by
        rintro ⟨h1, hpos⟩
        exact absurd hpos (not_lt.2 (le_of_lt (hneg a hm))))]
      rw [if_pos (List.all_eq_true.2 (fun j hj => decide_eq_true (hneg j hj)))]
      rw [mapM_ok (a :: t) _ (fun j => Shape.simple (revJ j)) hinv, except_bind_ok]
      unfold ConnectedShapeNew
      rw [filter_simples_id (a :: t) revJ]
      rw [if_neg (by simp)]
      rw [show ((a :: t).map (fun j => Shape.simple (revJ j))) =
        ((a :: t).map revJ).map Shape.simple from (List.map_map _ _ _).symm]
      rw [connectedHoles_whole_simples]
      rfl
  · intro hlen h1 h2
    obtain ⟨j1, hj1, hpos⟩ := h1
    obtain ⟨j2, hj2, hneg2⟩ := h2
    unfold ShapeFromJordans
    rw [if_neg (show ¬js.length = 0 from by omega)]
    rw [if_neg (by rintro ⟨hl, -⟩; omega)]
    rw [if_neg (by
      intro hc
      have := of_decide_eq_true (List.all_eq_true.1 hc j1 hj1)
      linarith)]
    rw [if_neg (by
      intro hc
      have := of_decide_eq_true (List.all_eq_true.1 hc j2 hj2)
      linarith)]

theorem unitSquare_deg_one : ∀ s ∈ unitSquare, s.length = 2 := by
  intro s hs
  simp only [unitSquare, List.mem_cons, List.not_mem_nil, or_false] at hs
  rcases hs with rfl | rfl | rfl | rfl <;> simp

theorem symQuad_quadMid : SymQuad quadMid := by
  intro n
  show List.Perm [((1 : ℝ) / 2, (1 : ℝ))] ([((1 : ℝ) / 2, (1 : ℝ))].map fun uw => (1 - uw.1, uw.2))
  norm_num

/-- Witness for C2: the unit square boundary (positive, polygonal) with
the midpoint rule classifies as a simple shape. -/
theorem C2_shape_from_jordans_witness :
    SymQuad quadMid ∧
    (∀ j ∈ [unitSquare], ∀ s ∈ j, s.length = 2) ∧
    (∀ j ∈ [unitSquare], 0 < IntegrateJordan.area quadMid j ∧
      0 < IntegrateJordan.lenght quadMid j) ∧
    ShapeFromJordans quadMid ddOTriv [unitSquare] = .ok (.simple unitSquare) := by
  have hsym := symQuad_quadMid
  have hp : ∀ j ∈ [unitSquare], ∀ s ∈ j, s.length = 2 := by
    intro j hj
    rw [List.mem_singleton] at hj
    rw [hj]
    exact unitSquare_deg_one
  have hpos : ∀ j ∈ [unitSquare], 0 < IntegrateJordan.area quadMid j ∧
      0 < IntegrateJordan.lenght quadMid j := by
    intro j hj
    rw [List.mem_singleton] at hj
    rw [hj, unitSquare_area, unitSquare_lenght]
    norm_num
  exact ⟨hsym, hp, hpos,
    ((C2_shape_from_jordans quadMid ddOTriv [unitSquare] hsym hp).2.1 hpos).1 rfl⟩

theorem arctan_neg_of {x : ℝ} (h : x < 0) : Real.arctan x < 0 := by
  have hm := Real.arctan_strictMono h
  rwa [Real.arctan_zero] at hm

theorem wnl_in_range (a b : Pt ℝ)
    (h : |(arctan2 b.2 b.1 - arctan2 a.2 a.1) / mtau| < 1 / 2) :
    IntegratePlanar.winding_number_linear a b =
      (arctan2 b.2 b.1 - arctan2 a.2 a.1) / mtau := by
  unfold IntegratePlanar.winding_number_linear
  rw [if_pos h]

theorem wnl_low (a b : Pt ℝ)
    (h1 : ¬|(arctan2 b.2 b.1 - arctan2 a.2 a.1) / mtau| < 1 / 2)
    (h2 : ¬0 < (arctan2 b.2 b.1 - arctan2 a.2 a.1) / mtau) :
    IntegratePlanar.winding_number_linear a b =
      (arctan2 b.2 b.1 - arctan2 a.2 a.1) / mtau + 1 := by
  unfold IntegratePlanar.winding_number_linear
  rw [if_neg h1, if_neg h2]

/-- The four linear winding contributions of a counter clockwise axis
aligned rectangle around the origin sum to exactly 1: three edges stay in
the `|wind| < 1/2` branch and the fourth wraps by `+1`. -/
theorem rect_wnl_sum (x0 x1 y0 y1 : ℝ) (hx0 : x0 < 0) (hx1 : 0 < x1)
    (hy0 : y0 < 0) (hy1 : 0 < y1) :
    IntegratePlanar.winding_number_linear (x0, y0) (x1, y0) +
      IntegratePlanar.winding_number_linear (x1, y0) (x1, y1) +
      IntegratePlanar.winding_number_linear (x1, y1) (x0, y1) +
      IntegratePlanar.winding_number_linear (x0, y1) (x0, y0) = 1 := by
  have hpi := Real.pi_pos
  have htau : (0 : ℝ) < mtau := by unfold mtau; positivity
  have hmt : mtau = 2 * Real.pi := rfl
  have h00 : arctan2 y0 x0 = Real.arctan (y0 / x0) - Real.pi := by
    unfold arctan2
    rw [if_neg (by linarith), if_pos hx0, if_neg (by linarith)]
  have h01 : arctan2 y0 x1 = Real.arctan (y0 / x1) := by
    unfold arctan2
    rw [if_pos hx1]
  have h11 : arctan2 y1 x1 = Real.arctan (y1 / x1) := by
    unfold arctan2
    rw [if_pos hx1]
  have h10 : arctan2 y1 x0 = Real.arctan (y1 / x0) + Real.pi := by
    unfold arctan2
    rw [if_neg (by linarith), if_pos hx0, if_pos (by linarith)]
  set t00 := Real.arctan (y0 / x0) with ht00
  set t01 := Real.arctan (y0 / x1) with ht01
  set t11 := Real.arctan (y1 / x1) with ht11
  set t10 := Real.arctan (y1 / x0) with ht10
  have hb00a : 0 < t00 := arctan_pos_of (div_pos_of_neg_of_neg hy0 hx0)
  have hb00b : t00 < Real.pi / 2 := Real.arctan_lt_pi_div_two _
  have hb01a : -(Real.pi / 2) < t01 := Real.neg_pi_div_two_lt_arctan _
  have hb01b : t01 < 0 := arctan_neg_of (div_neg_of_neg_of_pos hy0 hx1)
  have hb11a : 0 < t11 := arctan_pos_of (div_pos hy1 hx1)
  have hb11b : t11 < Real.pi / 2 := Real.arctan_lt_pi_div_two _
  have hb10a : -(Real.pi / 2) < t10 := Real.neg_pi_div_two_lt_arctan _
  have hb10b : t10 < 0 := arctan_neg_of (div_neg_of_pos_of_neg hy1 hx0)
  have he1 : IntegratePlanar.winding_number_linear (x0, y0) (x1, y0) =
      (t01 - (t00 - Real.pi)) / mtau := by
    have hd : 0 < t01 - (t00 - Real.pi) := by linarith
    have hd2 : t01 - (t00 - Real.pi) < Real.pi := by linarith
    have habs : |(arctan2 y0 x1 - arctan2 y0 x0) / mtau| < 1 / 2 := by
      rw [h01, h00, abs_of_pos (div_pos hd htau), div_lt_iff htau, hmt]
      linarith
    rw [wnl_in_range (x0, y0) (x1, y0) habs, h01, h00]
  have he2 : IntegratePlanar.winding_number_linear (x1, y0) (x1, y1) =
      (t11 - t01) / mtau := by
    have hd : 0 < t11 - t01 := by linarith
    have hd2 : t11 - t01 < Real.pi := by linarith
    have habs : |(arctan2 y1 x1 - arctan2 y0 x1) / mtau| < 1 / 2 := by
      rw [h11, h01, abs_of_pos (div_pos hd htau), div_lt_iff htau, hmt]
      linarith
    rw [wnl_in_range (x1, y0) (x1, y1) habs, h11, h01]
  have he3 : IntegratePlanar.winding_number_linear (x1, y1) (x0, y1) =
      (t10 + Real.pi - t11) / mtau := by
    have hd : 0 < t10 + Real.pi - t11 := by linarith
    have hd2 : t10 + Real.pi - t11 < Real.pi := by linarith
    have habs : |(arctan2 y1 x0 - arctan2 y1 x1) / mtau| < 1 / 2 := by
      rw [h10, h11]
      rw [show t10 + Real.pi - t11 = t10 + Real.pi - t11 from rfl]
      rw [abs_of_pos (div_pos (by linarith) htau), div_lt_iff htau, hmt]
      linarith
    rw [wnl_in_range (x1, y1) (x0, y1) habs, h10, h11]
  have he4 : IntegratePlanar.winding_number_linear (x0, y1) (x0, y0) =
      (t00 - t10 - 2 * Real.pi) / mtau + 1 := by
    have hval : arctan2 y0 x0 - arctan2 y1 x0 = t00 - t10 - 2 * Real.pi := by
      rw [h00, h10]
      ring
    have hlt : (t00 - t10 - 2 * Real.pi) / mtau < -(1 / 2) := by
      rw [div_lt_iff htau, hmt]
      linarith
    have habs : ¬|(arctan2 y0 x0 - arctan2 y1 x0) / mtau| < 1 / 2 := by
      rw [hval, abs_of_neg (lt_trans hlt (by norm_num))]
      intro hc
      linarith
    have hnpos : ¬0 < (arctan2 y0 x0 - arctan2 y1 x0) / mtau := by
      rw [hval]
      exact not_lt.2 (le_of_lt (lt_trans hlt (by norm_num)))
    rw [wnl_low (x0, y1) (x0, y0) habs hnpos, hval]
  rw [he1, he2, he3, he4]
  have hcomb : (t01 - (t00 - Real.pi)) / mtau + (t11 - t01) / mtau +
      (t10 + Real.pi - t11) / mtau + ((t00 - t10 - 2 * Real.pi) / mtau + 1) =
      ((t01 - (t00 - Real.pi)) + (t11 - t01) + (t10 + Real.pi - t11) +
        (t00 - t10 - 2 * Real.pi)) / mtau + 1 := by
    ring
  rw [hcomb, show (t01 - (t00 - Real.pi)) + (t11 - t01) + (t10 + Real.pi - t11) +
      (t00 - t10 - 2 * Real.pi) = 0 from by ring, zero_div]
  norm_num

theorem pyRound_one : pyRound 1 = 1 := by
  unfold pyRound
  rw [Int.floor_one]
  norm_num

theorem segBox_pair (p q : Pt ℝ) :
    segBox [p, q] = ⟨(min p.1 q.1, min p.2 q.2), (max p.1 q.1, max p.2 q.2)⟩ := by
  simp [segBox]

theorem segContainsB_pair_false (p q c : Pt ℝ)
    (h : ¬(min p.1 q.1 ≤ c.1 ∧ c.1 ≤ max p.1 q.1 ∧
      min p.2 q.2 ≤ c.2 ∧ c.2 ≤ max p.2 q.2)) :
    segContainsB [p, q] c = false := by
  unfold segContainsB
  rw [segBox_pair]
  have hb : inBoxB ⟨(min p.1 q.1, min p.2 q.2), (max p.1 q.1, max p.2 q.2)⟩ c = false := by
    unfold inBoxB
    exact decide_eq_false h
  rw [hb]
  rfl

theorem segWinding_pair (quad : Quad) (p q : Pt ℝ) :
    segWinding quad [p, q] none = IntegratePlanar.winding_number_linear p q := by
  unfold segWinding
  norm_num

/-- The winding number computed by `IntegrateJordan.winding_number` for a
counter clockwise axis aligned rectangle strictly containing the origin
is exactly 1 (no quadrature is used: every edge has degree 1). -/
theorem jordanWinding_rect (quad : Quad) (x0 x1 y0 y1 : ℝ)
    (hx0 : x0 < 0) (hx1 : 0 < x1) (hy0 : y0 < 0) (hy1 : 0 < y1) :
    jordanWinding quad
      [[(x0, y0), (x1, y0)], [(x1, y0), (x1, y1)],
        [(x1, y1), (x0, y1)], [(x0, y1), (x0, y0)]] = 1 := by
  have hb1 : segContainsB [((x0 : ℝ), (y0 : ℝ)), (x1, y0)] (0, 0) = false := by
    apply segContainsB_pair_false
    rintro ⟨-, -, -, h4⟩
    rw [max_self] at h4
    exact absurd h4 (by norm_num; linarith)
  have hb2 : segContainsB [((x1 : ℝ), (y0 : ℝ)), (x1, y1)] (0, 0) = false := by
    apply segContainsB_pair_false
    rintro ⟨h1, -, -, -⟩
    rw [min_self] at h1
    exact absurd h1 (by norm_num; linarith)
  have hb3 : segContainsB [((x1 : ℝ), (y1 : ℝ)), (x0, y1)] (0, 0) = false := by
    apply segContainsB_pair_false
    rintro ⟨-, -, h3, -⟩
    rw [min_self] at h3
    exact absurd h3 (by norm_num; linarith)
  have hb4 : segContainsB [((x0 : ℝ), (y1 : ℝ)), (x0, y0)] (0, 0) = false := by
    apply segContainsB_pair_false
    rintro ⟨-, h2, -, -⟩
    rw [max_self] at h2
    exact absurd h2 (by norm_num; linarith)
  have hany : ([[((x0 : ℝ), (y0 : ℝ)), (x1, y0)], [(x1, y0), (x1, y1)],
      [(x1, y1), (x0, y1)], [(x0, y1), (x0, y0)]].any
        (fun s => segContainsB s (0, 0))) = false := by
    simp only [List.any_cons, List.any_nil, Bool.or_false, Bool.or_eq_false_iff]
    exact ⟨hb1, hb2, hb3, hb4⟩
  unfold jordanWinding
  rw [if_neg (by
    rw [hany]
    exact Bool.false_ne_true)]
  simp only [List.map_cons, List.map_nil, List.sum_cons, List.sum_nil,
    segWinding_pair]
  have hsum := rect_wnl_sum x0 x1 y0 y1 hx0 hx1 hy0 hy1
  rw [show IntegratePlanar.winding_number_linear (x0, y0) (x1, y0) +
      (IntegratePlanar.winding_number_linear (x1, y0) (x1, y1) +
        (IntegratePlanar.winding_number_linear (x1, y1) (x0, y1) +
          (IntegratePlanar.winding_number_linear (x0, y1) (x0, y0) + 0))) =
      IntegratePlanar.winding_number_linear (x0, y0) (x1, y0) +
        IntegratePlanar.winding_number_linear (x1, y0) (x1, y1) +
        IntegratePlanar.winding_number_linear (x1, y1) (x0, y1) +
        IntegratePlanar.winding_number_linear (x0, y1) (x0, y0) from by ring]
  rw [hsum, pyRound_one]
  norm_num

/-- The square with corners `(±2, ±2)` (counter clockwise). -/
noncomputable def bigSquareJ : Jordan :=
  [[(-2, -2), (2, -2)], [(2, -2), (2, 2)], [(2, 2), (-2, 2)], [(-2, 2), (-2, -2)]]

/-- The square with corners `(±1, ±1)` (counter clockwise). -/
noncomputable def smallSquareJ : Jordan :=
  [[(-1, -1), (1, -1)], [(1, -1), (1, 1)], [(1, 1), (-1, 1)], [(-1, 1), (-1, -1)]]

theorem bigSquareJ_polyg : ∀ s ∈ bigSquareJ, s.length = 2 := by
  intro s hs
  simp only [bigSquareJ, List.mem_cons, List.not_mem_nil, or_false] at hs
  rcases hs with rfl | rfl | rfl | rfl <;> simp

theorem smallSquareJ_polyg : ∀ s ∈ smallSquareJ, s.length = 2 := by
  intro s hs
  simp only [smallSquareJ, List.mem_cons, List.not_mem_nil, or_false] at hs
  rcases hs with rfl | rfl | rfl | rfl <;> simp

theorem bigSquareJ_area : IntegrateJordan.area quadMid bigSquareJ = 16 := by
  simp only [IntegrateJordan.area, bigSquareJ, IntegratePlanar.area,
    IntegratePlanar.vertical, quadMid, derivCtrl_pair, evalPt_single, evalPt_pair,
    List.map_cons, List.map_nil]
  norm_num

theorem bigSquareJ_lenght : IntegrateJordan.lenght quadMid bigSquareJ = 16 := by
  simp only [IntegrateJordan.lenght, bigSquareJ, IntegratePlanar.lenght, quadMid,
    derivCtrl_pair, evalPt_single, List.map_cons, List.map_nil, ptAbs]
  have h16 : Real.sqrt 16 = 4 := by
    rw [show (16 : ℝ) = 4 ^ 2 by norm_num]
    exact Real.sqrt_sq (by norm_num)
  norm_num [h16]

theorem bigSquareJ_lenghtVal : lenghtVal quadMid bigSquareJ = 16 := by
  unfold lenghtVal
  rw [bigSquareJ_area, bigSquareJ_lenght]
  norm_num

theorem smallSquareJ_area : IntegrateJordan.area quadMid smallSquareJ = 4 := by
  simp only [IntegrateJordan.area, smallSquareJ, IntegratePlanar.area,
    IntegratePlanar.vertical, quadMid, derivCtrl_pair, evalPt_single, evalPt_pair,
    List.map_cons, List.map_nil]
  norm_num

theorem smallSquareJ_lenght : IntegrateJordan.lenght quadMid smallSquareJ = 8 := by
  simp only [IntegrateJordan.lenght, smallSquareJ, IntegratePlanar.lenght, quadMid,
    derivCtrl_pair, evalPt_single, List.map_cons, List.map_nil, ptAbs]
  have h4 : Real.sqrt 4 = 2 := by
    rw [show (4 : ℝ) = 2 ^ 2 by norm_num]
    exact Real.sqrt_sq (by norm_num)
  norm_num [h4]

theorem revSmall_lenghtVal : lenghtVal quadMid (revJ smallSquareJ) = -8 := by
  have ha := polyg_area_reverse quadMid symQuad_quadMid smallSquareJ_polyg
  have hl := polyg_lenght_reverse quadMid smallSquareJ_polyg
  unfold lenghtVal
  rw [ha, smallSquareJ_area, hl, smallSquareJ_lenght]
  norm_num

theorem jordanBox_bigSquare : jordanBox bigSquareJ = ⟨(-2, -2), (2, 2)⟩ := by
  unfold jordanBox bigSquareJ
  simp only [List.foldl_cons, List.foldl_nil, segBox_pair, boxUnion]
  norm_num

theorem moveJv_bigSquare (d : Pt ℝ) : moveJv bigSquareJ d =
    [[(-2 + d.1, -2 + d.2), (2 + d.1, -2 + d.2)],
      [(2 + d.1, -2 + d.2), (2 + d.1, 2 + d.2)],
      [(2 + d.1, 2 + d.2), (-2 + d.1, 2 + d.2)],
      [(-2 + d.1, 2 + d.2), (-2 + d.1, -2 + d.2)]] := by
  unfold moveJv bigSquareJ
  simp [Prod.ext_iff]

theorem bigSquare_winding (c : Pt ℝ) (h1 : -2 < c.1) (h2 : c.1 < 2)
    (h3 : -2 < c.2) (h4 : c.2 < 2) :
    fpWinding quadMid ddOTriv bigSquareJ c = 1 := by
  unfold fpWinding
  rw [copyJv_polyg ddOTriv bigSquareJ_polyg, moveJv_bigSquare (-c)]
  exact jordanWinding_rect quadMid (-2 + (-c).1) (2 + (-c).1) (-2 + (-c).2)
    (2 + (-c).2)
    (by simp only [Prod.fst_neg]; linarith)
    (by simp only [Prod.fst_neg]; linarith)
    (by simp only [Prod.snd_neg]; linarith)
    (by simp only [Prod.snd_neg]; linarith)

theorem bigSquare_boundary_false (c : Pt ℝ) (h1 : -2 < c.1) (h2 : c.1 < 2)
    (h3 : -2 < c.2) (h4 : c.2 < 2) :
    jordanContainsB bigSquareJ c = false := by
  have hbox : inBoxB ⟨(-2, -2), (2, 2)⟩ c = true :=
    decide_eq_true (show (-2 : ℝ) ≤ c.1 ∧ c.1 ≤ 2 ∧ (-2 : ℝ) ≤ c.2 ∧ c.2 ≤ 2 from
      ⟨le_of_lt h1, le_of_lt h2, le_of_lt h3, le_of_lt h4⟩)
  have hs1 : segContainsB [((-2 : ℝ), (-2 : ℝ)), (2, -2)] c = false := by
    apply segContainsB_pair_false
    rintro ⟨-, -, -, hc⟩
    norm_num at hc
    linarith
  have hs2 : segContainsB [((2 : ℝ), (-2 : ℝ)), (2, 2)] c = false := by
    apply segContainsB_pair_false
    rintro ⟨hc, -, -, -⟩
    norm_num at hc
    linarith
  have hs3 : segContainsB [((2 : ℝ), (2 : ℝ)), (-2, 2)] c = false := by
    apply segContainsB_pair_false
    rintro ⟨-, -, hc, -⟩
    norm_num at hc
    linarith
  have hs4 : segContainsB [((-2 : ℝ), (2 : ℝ)), (-2, -2)] c = false := by
    apply segContainsB_pair_false
    rintro ⟨-, hc, -, -⟩
    norm_num at hc
    linarith
  unfold jordanContainsB
  rw [jordanBox_bigSquare, if_pos hbox]
  show (bigSquareJ.any (fun s => segContainsB s c)) = false
  unfold bigSquareJ
  simp only [List.any_cons, List.any_nil, Bool.or_false, Bool.or_eq_false_iff]
  exact ⟨hs1, hs2, hs3, hs4⟩

/-- Every point strictly inside the big square (away from its edges) is
reported inside by `SimpleShape.contains_point`. -/
theorem bigSquare_contains_interior (c : Pt ℝ) (h1 : -2 < c.1) (h2 : c.1 < 2)
    (h3 : -2 < c.2) (h4 : c.2 < 2) :
    simpleContainsPoint quadMid ddOTriv bigSquareJ c = true := by
  have hbox : inBoxB ⟨(-2, -2), (2, 2)⟩ c = true :=
    decide_eq_true (show (-2 : ℝ) ≤ c.1 ∧ c.1 ≤ 2 ∧ (-2 : ℝ) ≤ c.2 ∧ c.2 ≤ 2 from
      ⟨le_of_lt h1, le_of_lt h2, le_of_lt h3, le_of_lt h4⟩)
  unfold simpleContainsPoint
  rw [jordanBox_bigSquare, if_pos hbox, bigSquare_boundary_false c h1 h2 h3 h4]
  rw [if_neg Bool.false_ne_true, if_pos (by rw [bigSquareJ_lenghtVal]; norm_num)]
  rw [bigSquare_winding c h1 h2 h3 h4]
  exact decide_eq_true rfl

theorem evalPt_pair_zero (p q : Pt ℝ) : evalPt [p, q] 0 = p := by
  rw [evalPt_pair, zero_smul, zero_add]

theorem pointsList_smallSquare :
    pointsList smallSquareJ 1 = [(-1, -1), (1, -1), (1, 1), (-1, 1), (-1, -1)] := by
  unfold pointsList smallSquareJ
  have hr : List.range 1 = [0] := by decide
  rw [hr]
  simp only [List.map_cons, List.map_nil, List.cons_bind, List.nil_bind,
    Nat.cast_zero, Nat.cast_one, zero_div, evalPt_pair_zero]
  rfl

theorem bigSquare_contains_smallJordan :
    simpleContainsJordan quadMid ddOTriv bigSquareJ smallSquareJ = true := by
  unfold simpleContainsJordan
  rw [pointsList_smallSquare]
  simp only [List.all_cons, List.all_nil]
  rw [bigSquare_contains_interior (-1, -1) (by norm_num) (by norm_num) (by norm_num)
      (by norm_num),
    bigSquare_contains_interior (1, -1) (by norm_num) (by norm_num) (by norm_num)
      (by norm_num),
    bigSquare_contains_interior (1, 1) (by norm_num) (by norm_num) (by norm_num)
      (by norm_num),
    bigSquare_contains_interior (-1, 1) (by norm_num) (by norm_num) (by norm_num)
      (by norm_num)]
  rfl

theorem bigSmall_make :
    ConnectedShapeNew quadMid ddOTriv (.simple bigSquareJ) [.simple smallSquareJ] =
      .ok (.connected (.simple bigSquareJ) [smallSquareJ]) := by
  have hcont : simpleContainsShape quadMid ddOTriv bigSquareJ
      (Shape.simple smallSquareJ) = true := by
    unfold simpleContainsShape
    exact bigSquare_contains_smallJordan
  have hstep : ConnectedShapeNew quadMid ddOTriv (.simple bigSquareJ)
      [.simple smallSquareJ] =
      (connectedHoles quadMid ddOTriv (.simple bigSquareJ)
        [.simple smallSquareJ]).map
        (fun js => Shape.connected (.simple bigSquareJ) js) := rfl
  rw [hstep]
  simp [connectedHoles, hcont, Except.map]

theorem bigSmall_or_empty (unionP : List Jordan → List Jordan → List Jordan) :
    shapeOr quadMid ddOTriv unionP
      (.connected (.simple bigSquareJ) [smallSquareJ]) .empty =
      .error .notImplemented := by
  have hjs : (((Shape.connected (.simple bigSquareJ)
      [smallSquareJ]).jordansOf ddOTriv).map (copyJv ddOTriv)) =
      [bigSquareJ, revJ smallSquareJ] := by
    unfold Shape.jordansOf posJordans
    simp only [List.map_cons, List.map_nil, List.cons_append, List.nil_append,
      List.singleton_append]
    rw [invertJv_polyg ddOTriv smallSquareJ_polyg,
      copyJv_polyg ddOTriv bigSquareJ_polyg,
      copyJv_polyg ddOTriv (revJ_polyg smallSquareJ_polyg)]
  show ShapeFromJordans quadMid ddOTriv
    (((Shape.connected (.simple bigSquareJ)
      [smallSquareJ]).jordansOf ddOTriv).map (copyJv ddOTriv)) = _
  rw [hjs]
  unfold ShapeFromJordans
  rw [if_neg (show ¬([bigSquareJ, revJ smallSquareJ].length = 0) from by simp)]
  rw [if_neg (by rintro ⟨hl, -⟩; simp at hl)]
  rw [if_neg (by
    intro hc
    have hb := of_decide_eq_true (List.all_eq_true.1 hc bigSquareJ (by simp))
    rw [bigSquareJ_lenghtVal] at hb
    norm_num at hb)]
  rw [if_neg (by
    intro hc
    have hb := of_decide_eq_true (List.all_eq_true.1 hc (revJ smallSquareJ) (by simp))
    rw [revSmall_lenghtVal] at hb
    norm_num at hb)]

/-- C1 counterexample: the connected shape `R` with positive part the
square `(±2, ±2)` and hole the square `(±1, ±1)` is accepted by the
`ConnectedShape` constructor (all four hole corners pass the winding
test), yet `R | EmptyShape()` raises `NotImplementedError` instead of
returning `R`: the Empty branch of `FiniteShape.__or__` calls
`self.copy()`, which rebuilds the shape through `ShapeFromJordans` on
the mixed sign boundary list `(lenght 16 and lenght -8)`. -/
theorem C1_short_circuit_counterexample :
    ConnectedShapeNew quadMid ddOTriv (.simple bigSquareJ) [.simple smallSquareJ] =
      .ok (.connected (.simple bigSquareJ) [smallSquareJ]) ∧
    shapeOr quadMid ddOTriv (fun a b => a ++ b)
      (.connected (.simple bigSquareJ) [smallSquareJ]) .empty =
      .error .notImplemented ∧
    (Except.error PyErr.notImplemented : Except PyErr Shape) ≠
      .ok (.connected (.simple bigSquareJ) [smallSquareJ]) :=
  ⟨bigSmall_make, bigSmall_or_empty (fun a b => a ++ b), by simp⟩

/-- A well formed boundary for the copy roundtrip: polygonal, counter
clockwise (positive area) and of positive arc length. -/
def GoodJordan (quad : Quad) (j : Jordan) : Prop :=
  (∀ s ∈ j, s.length = 2) ∧ 0 < IntegrateJordan.area quad j ∧
    0 < IntegrateJordan.lenght quad j

/-- Shapes whose stored data is reachable by the constructors and built
from well formed boundaries (the class on which `copy` is lossless). -/
def GoodShape (quad : Quad) : Shape → Prop
  | .empty => True
  | .whole => True
  | .simple j => GoodJordan quad j
  | .connected pos holes => pos = .whole ∧ holes ≠ [] ∧
      ∀ j ∈ holes, GoodJordan quad j
  | .disjoint subs => 2 ≤ subs.length ∧
      ∀ c ∈ subs, ∃ j, c = .simple j ∧ GoodJordan quad j

theorem shapeFromJordans_one_pos (quad : Quad) (ddO : DdOR) (j : Jordan)
    (hp : ∀ s ∈ j, s.length = 2) (hpos : 0 < IntegrateJordan.area quad j)
    (hlen : 0 < IntegrateJordan.lenght quad j) :
    ShapeFromJordans quad ddO [j] = .ok (.simple j) := by
  have hlv : 0 < lenghtVal quad j := by
    unfold lenghtVal
    rw [if_pos hpos]
    exact hlen
  have hni : SimpleShapeNew quad ddO j = .ok (.simple j) := by
    unfold SimpleShapeNew
    rw [if_neg (not_lt.2 (le_of_lt hlv)), copyJv_polyg ddO hp]
  unfold ShapeFromJordans
  rw [if_neg (by simp), if_pos ⟨rfl, hlv⟩]
  exact hni

theorem shapeFromJordans_disjoint (quad : Quad) (ddO : DdOR) (js : List Jordan)
    (hp : ∀ j ∈ js, ∀ s ∈ j, s.length = 2)
    (hall : ∀ j ∈ js, 0 < IntegrateJordan.area quad j ∧
      0 < IntegrateJordan.lenght quad j)
    (h2 : 2 ≤ js.length) :
    ShapeFromJordans quad ddO js = .ok (.disjoint (js.map CompShape.simple)) := by
  have hback : ∀ j ∈ js, 0 < lenghtVal quad j := by
    intro j hj
    have h := hall j hj
    unfold lenghtVal
    rw [if_pos h.1]
    exact h.2
  have hmk : ∀ j ∈ js, SimpleShapeNew quad ddO j = .ok (.simple j) := by
    intro j hj
    unfold SimpleShapeNew
    rw [if_neg (not_lt.2 (le_of_lt (hback j hj))), copyJv_polyg ddO (hp j hj)]
  obtain ⟨a, ha⟩ := @List.exists_mem_of_length_pos _ js (by omega)
  unfold ShapeFromJordans
  rw [if_neg (show ¬js.length = 0 from by omega)]
  rw [if_neg (by rintro ⟨h1, -⟩; omega)]
  rw [if_neg (by
    intro hc
    have := of_decide_eq_true (List.all_eq_true.1 hc a ha)
    linarith [hback a ha])]
  rw [if_pos (List.all_eq_true.2 (fun j hj => decide_eq_true (hback j hj)))]
  rw [mapM_ok js _ (fun j => Shape.simple j) hmk, except_bind_ok]
  unfold DisjointShapeNew
  rw [show (js.map (fun j => Shape.simple j)) = js.map (fun j => Shape.simple (id j))
    from rfl]
  rw [filter_simples_id js id]
  rw [if_neg (by simp only [List.length_map]; omega)]
  rw [if_pos (List.all_eq_true.2 (by
    intro x hx
    obtain ⟨j, _, rfl⟩ := List.mem_map.1 hx
    rfl))]
  rw [if_neg (by simp only [List.length_map]; omega)]
  rw [show js.map (fun j => Shape.simple (id j)) = js.map Shape.simple from rfl]
  rw [filterMap_toComp_simple]

theorem shapeFromJordans_connected (quad : Quad) (ddO : DdOR) (js : List Jordan)
    (hsym : SymQuad quad)
    (hp : ∀ j ∈ js, ∀ s ∈ j, s.length = 2)
    (hall : ∀ j ∈ js, IntegrateJordan.area quad j < 0 ∧
      0 < IntegrateJordan.lenght quad j)
    (hne : js ≠ []) :
    ShapeFromJordans quad ddO js = .ok (.connected .whole (js.map revJ)) := by
  have hneg : ∀ j ∈ js, lenghtVal quad j < 0 := by
    intro j hj
    have h := hall j hj
    unfold lenghtVal
    rw [if_neg (not_lt.2 (le_of_lt h.1))]
    linarith [h.2]
  have hinv : ∀ j ∈ js, SimpleShapeNew quad ddO (invertJv ddO j) =
      .ok (.simple (revJ j)) := by
    intro j hj
    rw [invertJv_polyg ddO (hp j hj)]
    unfold SimpleShapeNew
    have harea : 0 < IntegrateJordan.area quad (revJ j) := by
      rw [polyg_area_reverse quad hsym (hp j hj)]
      linarith [(hall j hj).1]
    have hlv : lenghtVal quad (revJ j) = IntegrateJordan.lenght quad (revJ j) := by
      unfold lenghtVal
      rw [if_pos harea]
    rw [if_neg (by
      rw [hlv, polyg_lenght_reverse quad (hp j hj)]
      exact not_lt.2 (le_of_lt (hall j hj).2))]
    rw [copyJv_polyg ddO (revJ_polyg (hp j hj))]
  cases js with
  | nil => exact absurd rfl hne
  | cons a t =>
    have hm : a ∈ a :: t := List.mem_cons_self a t
    unfold ShapeFromJordans
    rw [if_neg (by simp)]
    rw [if_neg (by
      rintro ⟨h1, hpos⟩
      exact absurd hpos (not_lt.2 (le_of_lt (hneg a hm))))]
    rw [if_pos (List.all_eq_true.2 (fun j hj => decide_eq_true (hneg j hj)))]
    rw [mapM_ok (a :: t) _ (fun j => Shape.simple (revJ j)) hinv, except_bind_ok]
    unfold ConnectedShapeNew
    rw [filter_simples_id (a :: t) revJ]
    rw [if_neg (by simp)]
    rw [show ((a :: t).map (fun j => Shape.simple (revJ j))) =
      ((a :: t).map revJ).map Shape.simple from (List.map_map _ _ _).symm]
    rw [connectedHoles_whole_simples]
    rfl

theorem exists_simple_list {quad : Quad} {subs : List CompShape}
    (h : ∀ c ∈ subs, ∃ j, c = .simple j ∧ GoodJordan quad j) :
    ∃ js : List Jordan, subs = js.map CompShape.simple ∧
      ∀ j ∈ js, GoodJordan quad j := by
  induction subs with
  | nil => exact ⟨[], rfl, by simp⟩
  | cons c t ih =>
    obtain ⟨j, rfl, hgj⟩ := h c (List.mem_cons_self c t)
    obtain ⟨js, hteq, hjs⟩ := ih (fun c2 hc2 => h c2 (List.mem_cons_of_mem _ hc2))
    refine ⟨j :: js, by rw [List.map_cons, hteq], ?_⟩
    intro x hx
    rcases List.mem_cons.1 hx with rfl | hx2
    · exact hgj
    · exact hjs x hx2

theorem bind_comp_simple (ddO : DdOR) (js : List Jordan) :
    ((js.map CompShape.simple).bind (fun c =>
      match c with
      | .simple j => [j]
      | .connected pos holes => posJordans pos ++ holes.map (invertJv ddO))) = js := by
  induction js with
  | nil => rfl
  | cons a t ih => simp [ih]

/-- C1 amended: `R & Empty` is `Empty` and `R | Whole` is `Whole` for
every shape `R`; but `R | Empty` and `R & Whole` return `R.copy()`, not
`R` itself: the copy rebuilds finite shapes through `ShapeFromJordans`
on copies of the stored boundaries, which raises `NotImplementedError`
on mixed sign boundary lists (for instance any `ConnectedShape` with a
bounded positive part and a hole, see the counterexample), and returns
a value equal to `R` on well formed shapes (polygonal boundaries with
the orientations the constructors enforce). -/
theorem C1_short_circuit_amended (quad : Quad) (ddO : DdOR)
    (unionP interP : List Jordan → List Jordan → List Jordan)
    (hasI : Jordan → Jordan → Bool) (hsym : SymQuad quad) :
    (∀ R, shapeAnd quad ddO interP hasI R .empty = .ok .empty) ∧
    (∀ R, shapeOr quad ddO unionP R .whole = .ok .whole) ∧
    (∀ R, shapeOr quad ddO unionP R .empty = copyShape quad ddO R) ∧
    (∀ R, shapeAnd quad ddO interP hasI R .whole = copyShape quad ddO R) ∧
    (∀ R, GoodShape quad R → copyShape quad ddO R = .ok R) := by
  refine ⟨fun R => by cases R <;> rfl, fun R => by cases R <;> rfl,
    fun R => by cases R <;> rfl, fun R => by cases R <;> rfl, ?_⟩
  intro R hg
  cases R with
  | empty => rfl
  | whole => rfl
  | simple j =>
    obtain ⟨hp, hpos, hlen⟩ := hg
    show ShapeFromJordans quad ddO
      (((Shape.simple j).jordansOf ddO).map (copyJv ddO)) = _
    have hjs : ((Shape.simple j).jordansOf ddO).map (copyJv ddO) = [j] := by
      unfold Shape.jordansOf
      simp [copyJv_polyg ddO hp]
    rw [hjs]
    exact shapeFromJordans_one_pos quad ddO j hp hpos hlen
  | connected pos holes =>
    obtain ⟨hw, hne, hgood⟩ := hg
    subst hw
    show ShapeFromJordans quad ddO
      (((Shape.connected .whole holes).jordansOf ddO).map (copyJv ddO)) = _
    have hjs : ((Shape.connected .whole holes).jordansOf ddO).map (copyJv ddO) =
        holes.map revJ := by
      simp only [Shape.jordansOf, posJordans, List.nil_append, List.map_map]
      apply List.map_congr_left
      intro h hh
      show copyJv ddO (invertJv ddO h) = revJ h
      rw [invertJv_polyg ddO (hgood h hh).1,
        copyJv_polyg ddO (revJ_polyg (hgood h hh).1)]
    rw [hjs]
    have hres := shapeFromJordans_connected quad ddO (holes.map revJ) hsym
      (fun j hj => by
        obtain ⟨h0, hh0, rfl⟩ := List.mem_map.1 hj
        exact revJ_polyg (hgood h0 hh0).1)
      (fun j hj => by
        obtain ⟨h0, hh0, rfl⟩ := List.mem_map.1 hj
        refine ⟨?_, ?_⟩
        · rw [polyg_area_reverse quad hsym (hgood h0 hh0).1]
          linarith [(hgood h0 hh0).2.1]
        · rw [polyg_lenght_reverse quad (hgood h0 hh0).1]
          exact (hgood h0 hh0).2.2)
      (by
        intro hcon
        exact hne (List.map_eq_nil.1 hcon))
    rw [hres, List.map_map]
    rw [show holes.map (revJ ∘ revJ) = holes.map id from
      List.map_congr_left (fun h _ => revJ_revJ h), List.map_id]
  | disjoint subs =>
    obtain ⟨hlen2, hex⟩ := hg
    obtain ⟨js, rfl, hjs⟩ := exists_simple_list hex
    show ShapeFromJordans quad ddO
      (((Shape.disjoint (js.map CompShape.simple)).jordansOf ddO).map
        (copyJv ddO)) = _
    have hjords : ((Shape.disjoint (js.map CompShape.simple)).jordansOf ddO).map
        (copyJv ddO) = js := by
      simp only [Shape.jordansOf]
      rw [bind_comp_simple ddO js]
      calc js.map (copyJv ddO)
          = js.map id := List.map_congr_left (fun j hj => copyJv_polyg ddO (hjs j hj).1)
        _ = js := List.map_id js
    rw [hjords]
    have hlenjs : 2 ≤ js.length := by
      rw [List.length_map] at hlen2
      exact hlen2
    exact shapeFromJordans_disjoint quad ddO js (fun j hj => (hjs j hj).1)
      (fun j hj => (hjs j hj).2) hlenjs

/-- Witness for the C1 amendment: the unit square simple shape with the
midpoint rule; `copy` is lossless on it and `R | Empty` returns the
copy. -/
theorem C1_short_circuit_amended_witness :
    SymQuad quadMid ∧ GoodShape quadMid (.simple unitSquare) ∧
      copyShape quadMid ddOTriv (.simple unitSquare) = .ok (.simple unitSquare) ∧
      shapeOr quadMid ddOTriv (fun a b => a ++ b) (.simple unitSquare) .empty =
        copyShape quadMid ddOTriv (.simple unitSquare) := by
  have hsym := symQuad_quadMid
  have hg : GoodShape quadMid (.simple unitSquare) :=
    ⟨unitSquare_deg_one, by rw [unitSquare_area]; norm_num,
      by rw [unitSquare_lenght]; norm_num⟩
  exact ⟨hsym, hg,
    (C1_short_circuit_amended quadMid ddOTriv (fun a b => a ++ b) (fun a b => a ++ b)
      (fun _ _ => false) hsym).2.2.2.2 (.simple unitSquare) hg,
    (C1_short_circuit_amended quadMid ddOTriv (fun a b => a ++ b) (fun a b => a ++ b)
      (fun _ _ => false) hsym).2.2.1 (.simple unitSquare)⟩
